import Mathlib

/-!
Verification of the core of the photo_renamer tool (src/bin/renamer.rs) against
its natural-language specification.

The Rust source is shallowly embedded below.  Filesystem, EXIF and SQLite
effects are made explicit:

* the filesystem and the ledger (the SQLite table of processed source paths)
  are a `World` record threaded through the functions;
* EXIF extraction (extract_timestamp_from_exif) and file-metadata extraction
  (extract_datetime_from_file_metadata) read data external to the program, so
  they are passed as oracle functions `String → Option DateTime`;
* strings are manipulated through their character lists so that every
  definition reduces in the kernel.

Path separators follow the platform the tool is specified against (Linux,
MAIN_SEPARATOR_STR = "/"), and case folding is ASCII, matching the ASCII
inputs all claims are about.
-/

namespace PhotoRenamer

/-! ### Character and string helpers -/

/-- ASCII uppercase test, `A` through `Z`. -/
def isUpperA (c : Char) : Bool := 'A' ≤ c && c ≤ 'Z'

/-- ASCII lowercasing of a single character (Rust `to_lowercase` on ASCII input,
and also the case folding SQLite's default `LIKE` applies). -/
def lowerChar (c : Char) : Char :=
  if isUpperA c then Char.ofNat (c.toNat + 32) else c

/-- ASCII lowercasing of a string, character by character. -/
def lowerStr (s : String) : String := String.mk (s.data.map lowerChar)

/-- Does the string contain an ASCII uppercase character? -/
def hasUpperA (s : String) : Bool := s.data.any isUpperA

/-- Is the string free of ASCII uppercase characters (fully lowercase)? -/
def noUpperA (s : String) : Bool := s.data.all (fun c => !(isUpperA c))

/-- `get_sql_safe_filename`: path with every backslash replaced by a forward
slash, the normalized form stored in the ledger. -/
def sqlSafe (s : String) : String :=
  String.mk (s.data.map (fun c => if c = '\\' then '/' else c))

/-- Split a character list at every dot, like Rust `str::split('.')`. -/
def splitOnDot : List Char → List (List Char)
  | [] => [[]]
  | c :: rest =>
    if c = '.' then [] :: splitOnDot rest
    else
      match splitOnDot rest with
      | [] => [[c]]
      | g :: gs => (c :: g) :: gs

/-- Split a character list before its last dot: `splitLastDot cs = some (b, a)`
when `cs = b ++ '.' :: a` and `a` contains no dot. -/
def splitLastDot : List Char → Option (List Char × List Char)
  | [] => none
  | c :: cs =>
    match splitLastDot cs with
    | some (b, a) => some (c :: b, a)
    | none => if c = '.' then some ([], cs) else none

/-- Final path component (text after the last forward slash), Rust
`Path::file_name` for the slash-separated file paths modelled here. -/
def fileNameL (cs : List Char) : List Char :=
  (cs.reverse.takeWhile (fun c => c ≠ '/')).reverse

/-- Rust `Path::file_stem` / `Path::extension` on a file name: the name is kept
whole when it has no dot or only a leading dot; otherwise it is split at the
last dot. -/
def stemExtOfName (name : List Char) : List Char × Option (List Char) :=
  match name with
  | [] => ([], none)
  | c :: rest =>
    match splitLastDot rest with
    | none => (name, none)
    | some (b, a) => (c :: b, some a)

/-- Stem (file name without directory and extension) of a path. -/
def stemOf (p : String) : String := String.mk (stemExtOfName (fileNameL p.data)).1

/-- Extension of a path, if any. -/
def extOf (p : String) : Option String :=
  (stemExtOfName (fileNameL p.data)).2.map String.mk

/-- `PathBuf::push`: join a directory and a file name, inserting a separator
when the directory does not already end with one. -/
def pathJoin (dir name : String) : String :=
  match dir.data.getLast? with
  | some '/' => dir ++ name
  | _ => dir ++ "/" ++ name

/-! ### Timestamps

`chrono::NaiveDateTime` values are embedded as six plain fields; chrono's
parsers reject calendar-invalid values, which `validDateTime` reproduces
(proleptic Gregorian leap rule). -/

structure DateTime where
  year : Nat
  month : Nat
  day : Nat
  hour : Nat
  minute : Nat
  second : Nat
deriving DecidableEq, Repr

def isLeapYear (y : Nat) : Bool :=
  (y % 4 = 0 && y % 100 ≠ 0) || y % 400 = 0

def daysInMonth (y m : Nat) : Nat :=
  if m = 2 then (if isLeapYear y then 29 else 28)
  else if m = 4 || m = 6 || m = 9 || m = 11 then 30
  else 31

def validDateTime (dt : DateTime) : Bool :=
  1 ≤ dt.month && dt.month ≤ 12 &&
  1 ≤ dt.day && dt.day ≤ daysInMonth dt.year dt.month &&
  dt.hour < 24 && dt.minute < 60 && dt.second < 60

def digitVal (c : Char) : Nat := c.toNat - '0'.toNat

def digitsToNat (cs : List Char) : Nat :=
  cs.foldl (fun acc c => acc * 10 + digitVal c) 0

/-- `chrono::NaiveDateTime::parse_from_str` with format `%Y%m%d%H%M%S` applied
to a 14-digit string (the only shape the renamer feeds it): fixed-width fields,
then calendar validation. -/
def parseDateTime14 (cs : List Char) : Option DateTime :=
  if cs.length = 14 && cs.all Char.isDigit then
    let dt : DateTime :=
      { year := digitsToNat (cs.take 4)
        month := digitsToNat ((cs.drop 4).take 2)
        day := digitsToNat ((cs.drop 6).take 2)
        hour := digitsToNat ((cs.drop 8).take 2)
        minute := digitsToNat ((cs.drop 10).take 2)
        second := digitsToNat ((cs.drop 12).take 2) }
    if validDateTime dt then some dt else none
  else none

def pad2 (n : Nat) : String := if n < 10 then "0" ++ toString n else toString n

def pad4 (n : Nat) : String :=
  if n < 10 then "000" ++ toString n
  else if n < 100 then "00" ++ toString n
  else if n < 1000 then "0" ++ toString n
  else toString n

/-- chrono format string `%Y%m%d_%H%M%S`, the base token of output names. -/
def fmtTimestamp (dt : DateTime) : String :=
  pad4 dt.year ++ pad2 dt.month ++ pad2 dt.day ++ "_" ++
    pad2 dt.hour ++ pad2 dt.minute ++ pad2 dt.second

/-! ### The filename-timestamp regex

The Rust source builds `Regex::new(r"(\d{8})[-_]?(\d{6})")` and searches the
file stem for its first match.  The regex is embedded directly: at a given
position it requires exactly eight digits, then an optional single `-` or `_`,
then six digits; the search tries successive start positions left to right,
which is the leftmost-match rule of the regex crate. -/

/-- Take exactly `n` leading digits, returning them and the rest. -/
def splitDigits : Nat → List Char → Option (List Char × List Char)
  | 0, cs => some ([], cs)
  | _ + 1, [] => none
  | n + 1, c :: cs =>
    if c.isDigit then
      match splitDigits n cs with
      | some (d, r) => some (c :: d, r)
      | none => none
    else none

/-- Match `(\d{8})[-_]?(\d{6})` anchored at the head of the list, returning the
two capture groups.  When the optional separator is present but fewer than six
digits follow it, backtracking to the empty separator also fails, because the
separator character itself is not a digit. -/
def matchTimestampAt (cs : List Char) : Option (List Char × List Char) :=
  match splitDigits 8 cs with
  | none => none
  | some (d8, rest) =>
    match rest with
    | [] => none
    | c :: rest2 =>
      if c = '-' || c = '_' then
        match splitDigits 6 rest2 with
        | some (t6, _) => some (d8, t6)
        | none => none
      else
        match splitDigits 6 rest with
        | some (t6, _) => some (d8, t6)
        | none => none

/-- First match of the timestamp regex in the list, scanning start positions
left to right. -/
def findTimestampMatch : List Char → Option (List Char × List Char)
  | [] => none
  | c :: cs =>
    match matchTimestampAt (c :: cs) with
    | some r => some r
    | none => findTimestampMatch cs

/-- `Captures::len()` for the compiled regex `(\d{8})[-_]?(\d{6})`: the number
of capture groups of the pattern, one implicit whole-match group plus the two
parenthesised groups, hence 3 whenever a match is produced. -/
def renamerRegexCapturesLen : Nat := 3

/-- `extract_datetime_from_filename`: takes the file stem, finds the first
regex match, and then — only under the guard `captures.len() == 1` — parses
the concatenated capture groups with `%Y%m%d%H%M%S`. -/
def extract_datetime_from_filename (file : String) : Option DateTime :=
  match findTimestampMatch (stemOf file).data with
  | none => none
  | some (d8, t6) =>
    if renamerRegexCapturesLen = 1 then parseDateTime14 (d8 ++ t6)
    else none

/-! ### Configuration, world state, and file classification -/

/-- `RenamerConfig` from src/config.rs. -/
structure RenamerConfig where
  root_paths : List String
  output_path : String
  raw_output_path : String
  exclusions : List String

/-- The external state the renamer mutates: files and directories on disk and
the rows of the `files` ledger table (each row stores the SQL-safe source path;
the second, checksum-named column duplicates the same value and is dropped
here). -/
structure World where
  files : List String
  dirs : List String
  ledger : List String
deriving DecidableEq, Repr

/-- `Path::exists`: true when the path names an existing file or directory. -/
def pathExists (w : World) (p : String) : Bool :=
  decide (p ∈ w.files) || decide (p ∈ w.dirs)

/-- `fs::create_dir_all` guarded by the `!new_path.exists()` check. -/
def addDirIfMissing (w : World) (d : String) : World :=
  if pathExists w d then w else { w with dirs := d :: w.dirs }

def SUPPORTED_EXIF_EXTENSIONS : List String := ["jpg", "tiff", "jpeg"]
def SUPPORTED_RAW_EXTENSIONS : List String := ["dng", "rw2", "raw"]
def SUPPORTED_MOVIE_EXTENSIONS : List String := ["mp4", "avi", "mpg", "mov"]

def _is_picture (file : String) : Bool :=
  match extOf file with
  | some e => decide (lowerStr e ∈ SUPPORTED_EXIF_EXTENSIONS)
  | none => false

def _is_raw (file : String) : Bool :=
  match extOf file with
  | some e => decide (lowerStr e ∈ SUPPORTED_RAW_EXTENSIONS)
  | none => false

def _is_movie (file : String) : Bool :=
  match extOf file with
  | some e => decide (lowerStr e ∈ SUPPORTED_MOVIE_EXTENSIONS)
  | none => false

def file_in_scope (file : String) : Bool :=
  _is_picture file || _is_raw file || _is_movie file

/-! ### Filename synthesizer and copy executor -/

/-- Output directory chosen for a source file: the raw output path for raw
files, the general output path otherwise. -/
def outDirOf (cfg : RenamerConfig) (source_file : String) : String :=
  if _is_raw source_file then cfg.raw_output_path else cfg.output_path

/-- `.mp.` double-extension live-photo signal: the lowercased file name, split
at dots, contains a component `mp`. -/
def hasMpTag (source_file : String) : Bool :=
  (splitOnDot ((fileNameL source_file.data).map lowerChar)).contains ['m', 'p']

/-- `mvimg` live-photo signal: the lowercased stem starts with `mvimg`. -/
def isMvimg (source_file : String) : Bool :=
  List.isPrefixOf ['m', 'v', 'i', 'm', 'g'] ((stemOf source_file).data.map lowerChar)

/-- Candidate output file name for the given collision counter: the formatted
timestamp, then (for counter > 0) the counter, then (for live photos) `mp`,
then the source extension, joined with dots. -/
def candidateName (source_file : String) (output_date : DateTime) (counter : Nat) : String :=
  String.intercalate "."
    ([fmtTimestamp output_date] ++
      (if counter ≠ 0 then [toString counter] else []) ++
      (if hasMpTag source_file || isMvimg source_file then ["mp"] else []) ++
      [(extOf source_file).getD ""])

/-- Full candidate path for a counter value: the output directory with the
candidate name pushed onto it. -/
def candidatePath (cfg : RenamerConfig) (source_file : String) (output_date : DateTime)
    (counter : Nat) : String :=
  pathJoin (outDirOf cfg source_file) (candidateName source_file output_date counter)

/-- Result of one call to the copy executor. -/
inductive CopyOutcome where
  /-- A copy was performed at the given (lowercased) destination path. -/
  | copied (dst : String)
  /-- Test mode: the intended (lowercased) destination was only logged. -/
  | wouldCopy (dst : String)
  /-- All counters collided; the function fell out of its loop. -/
  | exhausted
deriving DecidableEq, Repr

/-- The body of `copy_file_and_mark_as_processed`'s `for counter in 0..99`
loop, over an explicit list of remaining counter values.  Each iteration
re-creates the output directory if absent, builds the candidate path, skips to
the next counter when that path exists, and otherwise either logs (test mode)
or copies the file to the lowercased candidate path and inserts the ledger
row. -/
def copyLoop (source_file : String) (output_date : DateTime) (cfg : RenamerConfig)
    (test_mode : Bool) : List Nat → World → World × CopyOutcome
  | [], w => (w, .exhausted)
  | counter :: rest, w =>
    let w1 := addDirIfMissing w (outDirOf cfg source_file)
    let cand := candidatePath cfg source_file output_date counter
    if pathExists w1 cand then copyLoop source_file output_date cfg test_mode rest w1
    else
      let finalPath := lowerStr cand
      if test_mode then (w1, .wouldCopy finalPath)
      else
        ({ w1 with
            files := finalPath :: w1.files
            ledger := sqlSafe source_file :: w1.ledger },
          .copied finalPath)

/-- `copy_file_and_mark_as_processed`: the loop run with counters 0..98.  The
Rust function returns `Ok(())` on every path modelled here; the outcome
component records which exit was taken. -/
def copy_file_and_mark_as_processed (source_file : String) (output_date : DateTime)
    (cfg : RenamerConfig) (test_mode : Bool) (w : World) : World × CopyOutcome :=
  copyLoop source_file output_date cfg test_mode (List.range 99) w

/-- `has_file_been_processed`: `SELECT * FROM files WHERE filename = ?` with
the SQL-safe path — exact-match existence in the ledger. -/
def has_file_been_processed (w : World) (path : String) : Bool :=
  decide (sqlSafe path ∈ w.ledger)

/-! ### The per-group driver (`process_files`)

EXIF reading (`extract_timestamp_from_exif`) and filesystem-metadata reading
(`extract_datetime_from_file_metadata`) perform I/O on data outside the
program state, so they enter the model as oracles `String → Option DateTime`
(a `none` stands for any failure converted to "no timestamp").  The
`HashMap<String, Vec<PathBuf>>` of stem groups is modelled as a list of path
lists, one per stem. -/

/-- Inner loop of `process_files` over the members of one stem group.
`potential` is the already-computed list of distinct EXIF timestamps of the
group. -/
def processPaths (mtime : String → Option DateTime) (cfg : RenamerConfig)
    (test_mode : Bool) (potential : List DateTime) :
    List String → World × List String → World × List String
  | [], acc => acc
  | path :: rest, (w, errs) =>
    let acc :=
      if !file_in_scope path then (w, errs)
      else if has_file_been_processed w path then (w, errs)
      else
        match potential with
        | [d] => ((copy_file_and_mark_as_processed path d cfg test_mode w).1, errs)
        | _ =>
          match extract_datetime_from_filename path with
          | some d => ((copy_file_and_mark_as_processed path d cfg test_mode w).1, errs)
          | none =>
            match mtime path with
            | some d => ((copy_file_and_mark_as_processed path d cfg test_mode w).1, errs)
            | none =>
              (w, errs ++ ["Unable to determine valid datetime for " ++ path])
    processPaths mtime cfg test_mode potential rest acc

/-- Distinct EXIF timestamps successfully extracted across a group (the
`HashSet` of `Ok` results). -/
def potentialDates (exif : String → Option DateTime) (paths : List String) : List DateTime :=
  (paths.filterMap exif).dedup

/-- One iteration of the outer `process_files` loop: skip the group when every
member is already in the ledger, otherwise resolve and copy each member. -/
def processGroup (exif mtime : String → Option DateTime) (cfg : RenamerConfig)
    (test_mode : Bool) (paths : List String) (acc : World × List String) :
    World × List String :=
  if paths.all (fun p => has_file_been_processed acc.1 p) then acc
  else processPaths mtime cfg test_mode (potentialDates exif paths) paths acc

/-- The outer loop of `process_files` over all stem groups. -/
def processGroups (exif mtime : String → Option DateTime) (cfg : RenamerConfig)
    (test_mode : Bool) : List (List String) → World × List String → World × List String
  | [], acc => acc
  | g :: gs, acc =>
    processGroups exif mtime cfg test_mode gs (processGroup exif mtime cfg test_mode g acc)

/-- Result of a whole rename run. -/
structure RenameResult where
  world : World
  errors : List String
  success : Bool
deriving Repr

/-- `process_files`: run every group, then, when errors were collected, write
the error report file (its clock-derived name is the `reportName` parameter)
and return failure; otherwise return success. -/
def process_files (exif mtime : String → Option DateTime) (cfg : RenamerConfig)
    (test_mode : Bool) (reportName : String) (groups : List (List String))
    (w : World) : RenameResult :=
  let r := processGroups exif mtime cfg test_mode groups (w, [])
  if r.2.isEmpty then ⟨r.1, r.2, true⟩
  else ⟨{ r.1 with files := reportName :: r.1.files }, r.2, false⟩

/-! ### Rebase (`process_rebase`)

The SQL operations are embedded with SQLite's semantics: the default `LIKE` is
case-insensitive for ASCII letters and treats `%`/`_` as wildcards, `UPDATE`'s
affected-row count counts every row matched by the `WHERE` clause, and
`replace(X, Y, Z)` substitutes every occurrence of `Y`.  `MAIN_SEPARATOR_STR`
is `/` on the platform modelled. -/

/-- SQLite `LIKE` single-character comparison: ASCII-case-insensitive. -/
def likeCharEq (p c : Char) : Bool := lowerChar p = lowerChar c

/-- SQLite `LIKE` matcher on character lists, fuelled to keep the recursion
structural; `%` matches any sequence, `_` any single character. -/
def sqlLikeFuel : Nat → List Char → List Char → Bool
  | 0, _, _ => false
  | _ + 1, [], s => s.isEmpty
  | f + 1, p :: ps, s =>
    if p = '%' then
      sqlLikeFuel f ps s ||
        (match s with
          | [] => false
          | _ :: s2 => sqlLikeFuel f (p :: ps) s2)
    else if p = '_' then
      match s with
      | [] => false
      | _ :: s2 => sqlLikeFuel f ps s2
    else
      match s with
      | [] => false
      | c :: s2 => likeCharEq p c && sqlLikeFuel f ps s2

/-- `value LIKE pattern` in SQLite. -/
def sqlLike (pattern s : String) : Bool :=
  sqlLikeFuel (pattern.data.length + s.data.length + 1) pattern.data s.data

/-- Leftmost, non-overlapping replacement of every occurrence of `pat` —
SQLite's `replace(s, pat, rep)` (which leaves `s` unchanged when `pat` is
empty).  Fuelled by the input length to keep the recursion structural: each
step consumes at least one character of the input. -/
def replaceAllFuel (pat rep : List Char) : Nat → List Char → List Char
  | 0, s => s
  | _ + 1, [] => []
  | f + 1, c :: rest =>
    if pat ≠ [] ∧ List.isPrefixOf pat (c :: rest) then
      rep ++ replaceAllFuel pat rep f ((c :: rest).drop pat.length)
    else c :: replaceAllFuel pat rep f rest

def replaceAllL (pat rep s : List Char) : List Char :=
  replaceAllFuel pat rep s.length s

def replaceAll (s pat rep : String) : String :=
  String.mk (replaceAllL pat.data rep.data s.data)

/-- Root normalization in `process_rebase`: SQL-safe separators, then a
trailing separator appended when missing. -/
def normalizeRoot (s : String) : String :=
  let t := sqlSafe s
  match t.data.getLast? with
  | some '/' => t
  | _ => t ++ "/"

/-- Result of a rebase run: the ledger rows afterwards and the reported count
of affected rows. -/
structure RebaseResult where
  ledger : List String
  count : Nat
deriving DecidableEq, Repr

/-- `process_rebase`: normalize both roots; in test mode `SELECT COUNT(*) ...
WHERE filename like ?` without mutating, otherwise `UPDATE files SET filename
= replace(filename, src, dst) WHERE filename like ?`, reporting the number of
rows the statement touched. -/
def process_rebase (original_file_root destination_file_root : String)
    (test_mode : Bool) (ledger : List String) : RebaseResult :=
  let source_root := normalizeRoot original_file_root
  let dest_root := normalizeRoot destination_file_root
  let pattern := source_root ++ "%"
  if test_mode then
    ⟨ledger, (ledger.filter (fun e => sqlLike pattern e)).length⟩
  else
    ⟨ledger.map (fun e => if sqlLike pattern e then replaceAll e source_root dest_root else e),
      (ledger.filter (fun e => sqlLike pattern e)).length⟩

/-! ### Derived definitions used by the development -/

/-- One world extends another: nothing on disk or in the ledger is removed. -/
def World.sub (w w' : World) : Prop :=
  w.files ⊆ w'.files ∧ w.dirs ⊆ w'.dirs ∧ w.ledger ⊆ w'.ledger

/-- The world after the first loop iteration's directory-creation step. -/
def withOutDir (cfg : RenamerConfig) (p : String) (w : World) : World :=
  addDirIfMissing w (outDirOf cfg p)

/-- A source file on which the copy executor can make no progress: the output
directory exists and every one of the 99 candidate paths exists. -/
def copyBlocked (cfg : RenamerConfig) (p : String) (d : DateTime) (w : World) : Prop :=
  pathExists w (outDirOf cfg p) = true ∧
    ∀ c < 99, pathExists w (candidatePath cfg p d c) = true

/-- The timestamp the driver resolves for a member of a group whose distinct
EXIF timestamps are `potential`: the unique group timestamp when `potential`
is a singleton, otherwise the filename tier and then the modified-time tier.
Derived from the branch structure of `process_files`; note that the resolved
value depends only on `potential`, the path, and the mtime oracle — not on
the world. -/
def resolveWith (mtime : String → Option DateTime) (potential : List DateTime)
    (p : String) : Option DateTime :=
  match potential with
  | [d] => some d
  | _ =>
    match extract_datetime_from_filename p with
    | some d => some d
    | none => mtime p

/-- One member step of the driver, written with `resolveWith`. -/
def resolveStep (mtime : String → Option DateTime) (cfg : RenamerConfig) (tm : Bool)
    (potential : List DateTime) (p : String) (w : World) (errs : List String) :
    World × List String :=
  if !file_in_scope p then (w, errs)
  else if has_file_been_processed w p then (w, errs)
  else
    match resolveWith mtime potential p with
    | some d => ((copy_file_and_mark_as_processed p d cfg tm w).1, errs)
    | none => (w, errs ++ ["Unable to determine valid datetime for " ++ p])

/-- A file the live driver can no longer affect: it is recorded in the ledger,
or its timestamp is unresolvable, or it resolves but every candidate name
collides. -/
def fileSettled (mtime : String → Option DateTime) (cfg : RenamerConfig)
    (potential : List DateTime) (p : String) (w : World) : Prop :=
  has_file_been_processed w p = true ∨
    resolveWith mtime potential p = none ∨
    ∃ d, resolveWith mtime potential p = some d ∧ copyBlocked cfg p d w

/-- The world component of a run, accumulated group by group with a fresh
error list per group; by `processGroups_world_eq` this is the world every run
produces regardless of the errors collected along the way. -/
def processGroupsWorld (exif mtime : String → Option DateTime) (cfg : RenamerConfig)
    (tm : Bool) : List (List String) → World → World
  | [], w => w
  | g :: gs, w =>
    processGroupsWorld exif mtime cfg tm gs (processGroup exif mtime cfg tm g (w, [])).1


/-- Is the string free of the SQL `LIKE` wildcard characters? -/
def noWildcard (s : String) : Bool :=
  s.data.all (fun c => !(c = '%' || c = '_'))

/-- ASCII-case-insensitive prefix test: `p`, case-folded, is a prefix of `s`,
case-folded.  For wildcard-free patterns this is what `LIKE 'p%'` computes. -/
def asciiPrefixFold (p s : String) : Bool :=
  List.isPrefixOf (p.data.map lowerChar) (s.data.map lowerChar)

/-! ### Concrete fixtures used by witnesses and counterexamples -/

/-- EXIF oracle of a tree in which no file has usable EXIF. -/
def exifNoneOracle : String → Option DateTime := fun _ => none

/-- Metadata oracle with no readable modified time. -/
def mtimeNoneOracle : String → Option DateTime := fun _ => none

/-- Metadata oracle returning a fixed modified time for every file. -/
def mtimeConstOracle : String → Option DateTime := fun _ => some ⟨2023, 1, 1, 1, 1, 1⟩

/-- A small configuration: output directory `out`, raw output `outraw`. -/
def cfgDemo : RenamerConfig :=
  { root_paths := ["r"], output_path := "out", raw_output_path := "outraw", exclusions := [] }

/-- Fresh disk and ledger. -/
def emptyWorld : World := { files := [], dirs := [], ledger := [] }

/-- EXIF oracle for a stem group with two members carrying different
timestamps. -/
def exifAmbiguous : String → Option DateTime := fun p =>
  if p = "x/b.jpg" then some ⟨2020, 1, 1, 0, 0, 0⟩
  else if p = "y/b.jpg" then some ⟨2021, 2, 2, 2, 2, 2⟩
  else none

/-- Modified-time oracle for the same two members. -/
def mtimeAmbiguous : String → Option DateTime := fun p =>
  if p = "x/b.jpg" then some ⟨2022, 5, 5, 5, 5, 5⟩
  else if p = "y/b.jpg" then some ⟨2022, 6, 6, 6, 6, 6⟩
  else none

/-- EXIF oracle for a group in which exactly one member has a timestamp. -/
def exifUnified : String → Option DateTime := fun p =>
  if p = "x/c.jpg" then some ⟨2020, 1, 1, 0, 0, 0⟩ else none

/-- A disk on which `out/20230101_120000.jpg` is already taken. -/
def collisionWorld : World :=
  { files := ["out/20230101_120000.jpg"], dirs := ["out"], ledger := [] }

/-- A disk on which every one of the 99 candidate names for `s/a.jpg` at
2023-01-01 12:00:00 is already taken. -/
def blockedWorld : World :=
  { files := (List.range 99).map
      (fun k => candidatePath cfgDemo "s/a.jpg" ⟨2023, 1, 1, 12, 0, 0⟩ k)
    dirs := ["out"]
    ledger := [] }

/-- Configuration whose output directory contains an uppercase letter. -/
def cfgUpper : RenamerConfig :=
  { root_paths := ["r"], output_path := "Out", raw_output_path := "outraw", exclusions := [] }

/-- The driver pass a group receives when its distinct-EXIF set is the
singleton `[d]`: every in-scope, unprocessed member goes to the copy executor
with `d`; nothing else is consulted and no error can be recorded. -/
def unifiedGroupPass (cfg : RenamerConfig) (tm : Bool) (d : DateTime) :
    List String → World × List String → World × List String
  | [], acc => acc
  | p :: rest, (w, errs) =>
    unifiedGroupPass cfg tm d rest
      (if !file_in_scope p then (w, errs)
        else if has_file_been_processed w p then (w, errs)
        else ((copy_file_and_mark_as_processed p d cfg tm w).1, errs))

/-! ### Lemmas: ASCII case folding -/

theorem isUpperA_iff (c : Char) : isUpperA c = true ↔ 65 ≤ c.toNat ∧ c.toNat ≤ 90 := by
  simp [isUpperA, Bool.and_eq_true, decide_eq_true_eq, Char.le_def, UInt32.le_def,
    BitVec.le_def]
  rfl

theorem lowerChar_toNat_of_upper (c : Char) (h : isUpperA c = true) :
    (lowerChar c).toNat = c.toNat + 32 := by
  have hb := (isUpperA_iff c).mp h
  have hv : Nat.isValidChar (c.toNat + 32) := Or.inl (by omega)
  rw [lowerChar, if_pos h, Char.ofNat, dif_pos hv]
  simp [Char.ofNatAux, Char.toNat, UInt32.ofNat', UInt32.toNat]

theorem isUpperA_lowerChar (c : Char) : isUpperA (lowerChar c) = false := by
  by_cases h : isUpperA c = true
  · rw [Bool.eq_false_iff]
    intro hcon
    have h1 := (isUpperA_iff _).mp hcon
    have h2 := lowerChar_toNat_of_upper c h
    have h3 := (isUpperA_iff c).mp h
    omega
  · rw [lowerChar, if_neg h]
    simpa using h

theorem noUpperA_lowerStr (s : String) : noUpperA (lowerStr s) = true := by
  simp only [noUpperA, lowerStr, List.all_eq_true]
  intro c hc
  rcases List.mem_map.mp hc with ⟨b, _, rfl⟩
  simp [isUpperA_lowerChar]

theorem lowerStr_ne_of_hasUpper (s : String) (h : hasUpperA s = true) : lowerStr s ≠ s := by
  intro heq
  rcases List.any_eq_true.mp h with ⟨c, hc, hup⟩
  have hall := noUpperA_lowerStr s
  rw [heq] at hall
  simp only [noUpperA, List.all_eq_true] at hall
  have := hall c hc
  simp [hup] at this

/-! ### Lemmas: world growth and monotonicity -/

theorem World.sub_refl (w : World) : w.sub w := ⟨fun _ h => h, fun _ h => h, fun _ h => h⟩

theorem World.sub_trans {w v u : World} (h1 : w.sub v) (h2 : v.sub u) : w.sub u :=
  ⟨fun _ h => h2.1 (h1.1 h), fun _ h => h2.2.1 (h1.2.1 h), fun _ h => h2.2.2 (h1.2.2 h)⟩

theorem pathExists_mono {w w' : World} (h : w.sub w') {p : String}
    (hp : pathExists w p = true) : pathExists w' p = true := by
  simp only [pathExists, Bool.or_eq_true, decide_eq_true_eq] at hp ⊢
  rcases hp with hp | hp
  · exact Or.inl (h.1 hp)
  · exact Or.inr (h.2.1 hp)

theorem has_file_been_processed_mono {w w' : World} (h : w.sub w') {p : String}
    (hp : has_file_been_processed w p = true) : has_file_been_processed w' p = true := by
  simp only [has_file_been_processed, decide_eq_true_eq] at hp ⊢
  exact h.2.2 hp

theorem addDirIfMissing_sub (w : World) (d : String) : w.sub (addDirIfMissing w d) := by
  unfold addDirIfMissing
  by_cases h : pathExists w d = true
  · simp [h, World.sub_refl]
  · simp only [Bool.not_eq_true] at h
    simp only [h, Bool.false_eq_true, if_false]
    exact ⟨fun _ h => h, fun _ h => List.mem_cons_of_mem _ h, fun _ h => h⟩

theorem pathExists_addDirIfMissing (w : World) (d : String) :
    pathExists (addDirIfMissing w d) d = true := by
  unfold addDirIfMissing
  by_cases h : pathExists w d = true
  · simp [h]
  · rw [if_neg (by simp [h])]
    simp [pathExists, List.mem_cons]

theorem addDirIfMissing_of_exists {w : World} {d : String} (h : pathExists w d = true) :
    addDirIfMissing w d = w := by
  unfold addDirIfMissing
  simp [h]

theorem addDirIfMissing_files (w : World) (d : String) :
    (addDirIfMissing w d).files = w.files := by
  unfold addDirIfMissing
  by_cases h : pathExists w d = true <;> simp [h]

theorem addDirIfMissing_ledger (w : World) (d : String) :
    (addDirIfMissing w d).ledger = w.ledger := by
  unfold addDirIfMissing
  by_cases h : pathExists w d = true <;> simp [h]

/-! ### Lemmas: the copy executor loop -/

theorem withOutDir_sub (cfg : RenamerConfig) (p : String) (w : World) :
    w.sub (withOutDir cfg p w) := addDirIfMissing_sub w _

theorem pathExists_withOutDir (cfg : RenamerConfig) (p : String) (w : World) :
    pathExists (withOutDir cfg p w) (outDirOf cfg p) = true :=
  pathExists_addDirIfMissing w _

theorem withOutDir_of_exists {cfg : RenamerConfig} {p : String} {w : World}
    (h : pathExists w (outDirOf cfg p) = true) : withOutDir cfg p w = w :=
  addDirIfMissing_of_exists h

theorem copyLoop_stable (p : String) (d : DateTime) (cfg : RenamerConfig) (tm : Bool)
    (c : Nat) (cs : List Nat) (w : World) :
    copyLoop p d cfg tm (c :: cs) w = copyLoop p d cfg tm (c :: cs) (withOutDir cfg p w) := by
  show copyLoop p d cfg tm (c :: cs) w = copyLoop p d cfg tm (c :: cs) (addDirIfMissing w _)
  conv_rhs => rw [copyLoop]
  rw [copyLoop]
  rw [addDirIfMissing_of_exists (pathExists_addDirIfMissing w (outDirOf cfg p))]

theorem copyLoop_exhausted_of_all {p : String} {d : DateTime} {cfg : RenamerConfig} {tm : Bool}
    {w : World} (H : pathExists w (outDirOf cfg p) = true) :
    ∀ cs : List Nat, (∀ c ∈ cs, pathExists w (candidatePath cfg p d c) = true) →
      copyLoop p d cfg tm cs w = (w, .exhausted)
  | [], _ => rfl
  | c :: cs, hall => by
    rw [copyLoop, addDirIfMissing_of_exists H]
    rw [if_pos (hall c (List.mem_cons_self c cs))]
    exact copyLoop_exhausted_of_all H cs (fun b hb => hall b (List.mem_cons_of_mem c hb))

theorem copyLoop_exhausted_inv {p : String} {d : DateTime} {cfg : RenamerConfig} {tm : Bool} :
    ∀ (cs : List Nat) (w : World), pathExists w (outDirOf cfg p) = true →
      (copyLoop p d cfg tm cs w).2 = .exhausted →
      (copyLoop p d cfg tm cs w).1 = w ∧
        ∀ c ∈ cs, pathExists w (candidatePath cfg p d c) = true := by
  intro cs
  induction cs with
  | nil => intro w _ _; exact ⟨rfl, by simp⟩
  | cons c cs ih =>
    intro w hw hex
    rw [copyLoop, addDirIfMissing_of_exists hw] at hex ⊢
    by_cases hc : pathExists w (candidatePath cfg p d c) = true
    · rw [if_pos hc] at hex ⊢
      rcases ih w hw hex with ⟨h1, h2⟩
      refine ⟨h1, fun b hb => ?_⟩
      rcases List.mem_cons.mp hb with rfl | hb
      · exact hc
      · exact h2 b hb
    · rw [if_neg hc] at hex
      by_cases htm : tm = true
      · simp [htm] at hex
      · simp only [Bool.not_eq_true] at htm
        simp [htm] at hex

theorem copyLoop_copied_spec {p : String} {d : DateTime} {cfg : RenamerConfig} {tm : Bool} :
    ∀ (cs : List Nat) (w : World) (dst : String),
      pathExists w (outDirOf cfg p) = true →
      (copyLoop p d cfg tm cs w).2 = .copied dst →
      ∃ c ∈ cs, pathExists w (candidatePath cfg p d c) = false ∧
        dst = lowerStr (candidatePath cfg p d c) ∧
        (copyLoop p d cfg tm cs w).1 =
          { w with files := dst :: w.files, ledger := sqlSafe p :: w.ledger } := by
  intro cs
  induction cs with
  | nil => intro w dst _ h; simp [copyLoop] at h
  | cons c cs ih =>
    intro w dst hw h
    rw [copyLoop, addDirIfMissing_of_exists hw] at h ⊢
    by_cases hc : pathExists w (candidatePath cfg p d c) = true
    · rw [if_pos hc] at h ⊢
      rcases ih w dst hw h with ⟨b, hb, h1, h2, h3⟩
      exact ⟨b, List.mem_cons_of_mem c hb, h1, h2, h3⟩
    · rw [if_neg hc] at h ⊢
      by_cases htm : tm = true
      · simp [htm] at h
      · simp only [Bool.not_eq_true] at htm
        subst htm
        simp only [Bool.false_eq_true, if_false, CopyOutcome.copied.injEq] at h
        subst h
        exact ⟨c, List.mem_cons_self c cs, by simpa using hc, rfl, rfl⟩

theorem copyLoop_testmode_frame {p : String} {d : DateTime} {cfg : RenamerConfig} :
    ∀ (cs : List Nat) (w : World),
      ((copyLoop p d cfg true cs w).1.files = w.files ∧
        (copyLoop p d cfg true cs w).1.ledger = w.ledger) := by
  intro cs
  induction cs with
  | nil => intro w; exact ⟨rfl, rfl⟩
  | cons c cs ih =>
    intro w
    rw [copyLoop]
    by_cases hc : pathExists (addDirIfMissing w (outDirOf cfg p))
        (candidatePath cfg p d c) = true
    · rw [if_pos hc]
      rcases ih (addDirIfMissing w (outDirOf cfg p)) with ⟨h1, h2⟩
      rw [h1, h2, addDirIfMissing_files, addDirIfMissing_ledger]
      exact ⟨rfl, rfl⟩
    · rw [if_neg hc]
      exact ⟨addDirIfMissing_files w _, addDirIfMissing_ledger w _⟩

theorem copyLoop_not_wouldCopy {p : String} {d : DateTime} {cfg : RenamerConfig} :
    ∀ (cs : List Nat) (w : World) (dst : String),
      (copyLoop p d cfg false cs w).2 ≠ .wouldCopy dst := by
  intro cs
  induction cs with
  | nil => intro w dst h; simp [copyLoop] at h
  | cons c cs ih =>
    intro w dst h
    rw [copyLoop] at h
    by_cases hc : pathExists (addDirIfMissing w (outDirOf cfg p))
        (candidatePath cfg p d c) = true
    · rw [if_pos hc] at h
      exact ih _ dst h
    · rw [if_neg hc] at h
      simp at h

theorem copyLoop_sub {p : String} {d : DateTime} {cfg : RenamerConfig} {tm : Bool} :
    ∀ (cs : List Nat) (w : World), w.sub (copyLoop p d cfg tm cs w).1 := by
  intro cs
  induction cs with
  | nil => intro w; exact World.sub_refl w
  | cons c cs ih =>
    intro w
    rw [copyLoop]
    by_cases hc : pathExists (addDirIfMissing w (outDirOf cfg p))
        (candidatePath cfg p d c) = true
    · rw [if_pos hc]
      exact World.sub_trans (addDirIfMissing_sub w _) (ih _)
    · rw [if_neg hc]
      by_cases htm : tm = true
      · subst htm
        exact addDirIfMissing_sub w _
      · simp only [Bool.not_eq_true] at htm
        subst htm
        simp only [Bool.false_eq_true, if_false]
        refine World.sub_trans (addDirIfMissing_sub w (outDirOf cfg p)) ?_
        exact ⟨fun x hx => List.mem_cons_of_mem _ hx, fun x hx => hx,
          fun x hx => List.mem_cons_of_mem _ hx⟩

theorem copy_file_eq_withOutDir (p : String) (d : DateTime) (cfg : RenamerConfig)
    (tm : Bool) (w : World) :
    copy_file_and_mark_as_processed p d cfg tm w =
      copyLoop p d cfg tm (List.range 99) (withOutDir cfg p w) := by
  unfold copy_file_and_mark_as_processed
  rw [show List.range 99 = 0 :: (List.range' 1 98) by rfl]
  exact copyLoop_stable p d cfg tm 0 (List.range' 1 98) w

theorem copyBlocked_mono {cfg : RenamerConfig} {p : String} {d : DateTime} {w w' : World}
    (hsub : w.sub w') (h : copyBlocked cfg p d w) : copyBlocked cfg p d w' :=
  ⟨pathExists_mono hsub h.1, fun c hc => pathExists_mono hsub (h.2 c hc)⟩

theorem copy_file_of_blocked {cfg : RenamerConfig} {p : String} {d : DateTime} {w : World}
    (tm : Bool) (h : copyBlocked cfg p d w) :
    copy_file_and_mark_as_processed p d cfg tm w = (w, .exhausted) := by
  rw [copy_file_eq_withOutDir, withOutDir_of_exists h.1]
  exact copyLoop_exhausted_of_all h.1 _
    (fun c hc => h.2 c (List.mem_range.mp hc))

theorem copy_file_exhausted_inv {cfg : RenamerConfig} {p : String} {d : DateTime}
    {tm : Bool} {w : World}
    (h : (copy_file_and_mark_as_processed p d cfg tm w).2 = .exhausted) :
    (copy_file_and_mark_as_processed p d cfg tm w).1 = withOutDir cfg p w ∧
      copyBlocked cfg p d (withOutDir cfg p w) := by
  rw [copy_file_eq_withOutDir] at h ⊢
  rcases copyLoop_exhausted_inv (List.range 99) (withOutDir cfg p w)
    (pathExists_withOutDir cfg p w) h with ⟨h1, h2⟩
  exact ⟨h1, pathExists_withOutDir cfg p w,
    fun c hc => h2 c (List.mem_range.mpr hc)⟩

theorem copy_file_copied_spec {cfg : RenamerConfig} {p : String} {d : DateTime}
    {tm : Bool} {w : World} {dst : String}
    (h : (copy_file_and_mark_as_processed p d cfg tm w).2 = .copied dst) :
    ∃ c < 99, pathExists (withOutDir cfg p w) (candidatePath cfg p d c) = false ∧
      dst = lowerStr (candidatePath cfg p d c) ∧
      (copy_file_and_mark_as_processed p d cfg tm w).1 =
        { withOutDir cfg p w with
            files := dst :: (withOutDir cfg p w).files
            ledger := sqlSafe p :: (withOutDir cfg p w).ledger } := by
  rw [copy_file_eq_withOutDir] at h ⊢
  rcases copyLoop_copied_spec (List.range 99) (withOutDir cfg p w) dst
    (pathExists_withOutDir cfg p w) h with ⟨c, hc, h1, h2, h3⟩
  exact ⟨c, List.mem_range.mp hc, h1, h2, h3⟩

theorem copy_file_sub (p : String) (d : DateTime) (cfg : RenamerConfig) (tm : Bool)
    (w : World) : w.sub (copy_file_and_mark_as_processed p d cfg tm w).1 := by
  rw [copy_file_eq_withOutDir]
  exact World.sub_trans (withOutDir_sub cfg p w) (copyLoop_sub _ _)

theorem copy_file_testmode_frame (p : String) (d : DateTime) (cfg : RenamerConfig)
    (w : World) :
    (copy_file_and_mark_as_processed p d cfg true w).1.files = w.files ∧
      (copy_file_and_mark_as_processed p d cfg true w).1.ledger = w.ledger := by
  rw [copy_file_eq_withOutDir]
  rcases copyLoop_testmode_frame (List.range 99) (withOutDir cfg p w) with ⟨h1, h2⟩
  constructor
  · rw [h1]; exact addDirIfMissing_files w _
  · rw [h2]; exact addDirIfMissing_ledger w _

theorem copy_file_not_wouldCopy (p : String) (d : DateTime) (cfg : RenamerConfig)
    (w : World) (dst : String) :
    (copy_file_and_mark_as_processed p d cfg false w).2 ≠ .wouldCopy dst := by
  rw [copy_file_eq_withOutDir]
  exact copyLoop_not_wouldCopy _ _ dst

/-- In a live (non-test) run the executor either leaves the ledger unchanged
(exhausted) or pushes exactly the source's SQL-safe path (copied). -/
theorem copy_file_live_ledger (p : String) (d : DateTime) (cfg : RenamerConfig)
    (w : World) :
    ((copy_file_and_mark_as_processed p d cfg false w).2 = .exhausted ∧
        (copy_file_and_mark_as_processed p d cfg false w).1.ledger = w.ledger ∧
        (copy_file_and_mark_as_processed p d cfg false w).1.files = w.files) ∨
      (∃ dst, (copy_file_and_mark_as_processed p d cfg false w).2 = .copied dst ∧
        (copy_file_and_mark_as_processed p d cfg false w).1.ledger =
          sqlSafe p :: w.ledger) := by
  cases ho : (copy_file_and_mark_as_processed p d cfg false w).2 with
  | exhausted =>
    left
    rcases copy_file_exhausted_inv ho with ⟨h1, _⟩
    refine ⟨rfl, ?_, ?_⟩
    · rw [h1]; exact addDirIfMissing_ledger w _
    · rw [h1]; exact addDirIfMissing_files w _
  | wouldCopy dst => exact absurd ho (copy_file_not_wouldCopy p d cfg w dst)
  | copied dst =>
    right
    rcases copy_file_copied_spec ho with ⟨c, _, _, _, h3⟩
    refine ⟨dst, rfl, ?_⟩
    rw [h3]
    simp [withOutDir, addDirIfMissing_ledger]

/-- The first-free-counter lemma: if every counter below `k` collides and `k`
is free, the loop over `range' a n` (with `a ≤ k < a + n`) terminates at
counter `k`. -/
theorem copyLoop_first_free {p : String} {d : DateTime} {cfg : RenamerConfig} {tm : Bool}
    {w : World} (H : pathExists w (outDirOf cfg p) = true) {k : Nat} :
    ∀ (n a : Nat), a ≤ k → k < a + n →
      (∀ j, a ≤ j → j < k → pathExists w (candidatePath cfg p d j) = true) →
      pathExists w (candidatePath cfg p d k) = false →
      copyLoop p d cfg tm (List.range' a n) w =
        (if tm then (w, .wouldCopy (lowerStr (candidatePath cfg p d k)))
          else ({ w with
              files := lowerStr (candidatePath cfg p d k) :: w.files
              ledger := sqlSafe p :: w.ledger },
            .copied (lowerStr (candidatePath cfg p d k)))) := by
  intro n
  induction n with
  | zero => intro a h1 h2; omega
  | succ n ih =>
    intro a ha hk hbusy hfree
    rw [List.range'_succ, copyLoop, addDirIfMissing_of_exists H]
    by_cases hak : a = k
    · subst hak
      rw [if_neg (by simp [hfree])]
    · have halt : a < k := Nat.lt_of_le_of_ne ha hak
      rw [if_pos (hbusy a (Nat.le_refl a) halt)]
      exact ih (a + 1) halt (by omega) (fun j hj1 hj2 => hbusy j (by omega) hj2) hfree

/-! ### Lemmas: the per-group driver -/

theorem resolveStep_skip {p : String} (mtime : String → Option DateTime)
    (cfg : RenamerConfig) (tm : Bool) (potential : List DateTime) (w : World)
    (errs : List String) (hsc : file_in_scope p = false) :
    resolveStep mtime cfg tm potential p w errs = (w, errs) := by
  unfold resolveStep
  simp [hsc]

theorem resolveStep_processed {p : String} {w : World} (mtime : String → Option DateTime)
    (cfg : RenamerConfig) (tm : Bool) (potential : List DateTime) (errs : List String)
    (hpr : has_file_been_processed w p = true) :
    resolveStep mtime cfg tm potential p w errs = (w, errs) := by
  unfold resolveStep
  by_cases hsc : file_in_scope p = true
  · simp [hsc, hpr]
  · simp [show file_in_scope p = false by simpa using hsc]

theorem resolveStep_copy (mtime : String → Option DateTime) (cfg : RenamerConfig)
    (tm : Bool) (potential : List DateTime) (p : String) (w : World) (d : DateTime)
    (errs : List String)
    (hsc : file_in_scope p = true) (hpr : has_file_been_processed w p = false)
    (hres : resolveWith mtime potential p = some d) :
    resolveStep mtime cfg tm potential p w errs =
      ((copy_file_and_mark_as_processed p d cfg tm w).1, errs) := by
  unfold resolveStep
  simp [hsc, hpr, hres]

theorem resolveStep_err (mtime : String → Option DateTime) (cfg : RenamerConfig)
    (tm : Bool) (potential : List DateTime) (p : String) (w : World)
    (errs : List String)
    (hsc : file_in_scope p = true) (hpr : has_file_been_processed w p = false)
    (hres : resolveWith mtime potential p = none) :
    resolveStep mtime cfg tm potential p w errs =
      (w, errs ++ ["Unable to determine valid datetime for " ++ p]) := by
  unfold resolveStep
  simp [hsc, hpr, hres]

theorem resolveWith_single (mtime : String → Option DateTime) (d : DateTime)
    (p : String) : resolveWith mtime [d] p = some d := rfl

theorem resolveWith_nil (mtime : String → Option DateTime) (p : String) :
    resolveWith mtime [] p =
      (match extract_datetime_from_filename p with
        | some d => some d
        | none => mtime p) := rfl

theorem resolveWith_big (mtime : String → Option DateTime) (d e : DateTime)
    (tail : List DateTime) (p : String) :
    resolveWith mtime (d :: e :: tail) p =
      (match extract_datetime_from_filename p with
        | some d => some d
        | none => mtime p) := rfl

theorem driverBody_eq_resolveStep (mtime : String → Option DateTime) (cfg : RenamerConfig)
    (tm : Bool) (potential : List DateTime) (p : String) (w : World) (errs : List String) :
    (if !file_in_scope p then (w, errs)
      else if has_file_been_processed w p then (w, errs)
      else
        match potential with
        | [d] => ((copy_file_and_mark_as_processed p d cfg tm w).1, errs)
        | _ =>
          match extract_datetime_from_filename p with
          | some d => ((copy_file_and_mark_as_processed p d cfg tm w).1, errs)
          | none =>
            match mtime p with
            | some d => ((copy_file_and_mark_as_processed p d cfg tm w).1, errs)
            | none => (w, errs ++ ["Unable to determine valid datetime for " ++ p])) =
      resolveStep mtime cfg tm potential p w errs := by
  unfold resolveStep resolveWith
  by_cases hsc : file_in_scope p = true
  · rw [hsc]
    by_cases hpr : has_file_been_processed w p = true
    · rw [hpr]
      rfl
    · have hpr2 : has_file_been_processed w p = false := by simpa using hpr
      rw [hpr2]
      rcases potential with _ | ⟨d, _ | ⟨e, tail⟩⟩
      · cases hex : extract_datetime_from_filename p with
        | some d0 => rfl
        | none =>
          cases hmt : mtime p with
          | some d0 => rfl
          | none => rfl
      · rfl
      · cases hex : extract_datetime_from_filename p with
        | some d0 => rfl
        | none =>
          cases hmt : mtime p with
          | some d0 => rfl
          | none => rfl
  · have hsc2 : file_in_scope p = false := by simpa using hsc
    rw [hsc2]
    rfl

theorem processPaths_cons (mtime : String → Option DateTime) (cfg : RenamerConfig)
    (tm : Bool) (potential : List DateTime) (p : String) (ps : List String)
    (w : World) (errs : List String) :
    processPaths mtime cfg tm potential (p :: ps) (w, errs) =
      processPaths mtime cfg tm potential ps
        (resolveStep mtime cfg tm potential p w errs) :=
  congrArg (processPaths mtime cfg tm potential ps)
    (driverBody_eq_resolveStep mtime cfg tm potential p w errs)

theorem resolveStep_sub (mtime : String → Option DateTime) (cfg : RenamerConfig)
    (tm : Bool) (potential : List DateTime) (p : String) (w : World)
    (errs : List String) :
    w.sub (resolveStep mtime cfg tm potential p w errs).1 := by
  by_cases hsc : file_in_scope p = true
  · by_cases hpr : has_file_been_processed w p = true
    · rw [resolveStep_processed mtime cfg tm potential errs hpr]
      exact World.sub_refl w
    · have hpr2 : has_file_been_processed w p = false := by simpa using hpr
      cases hres : resolveWith mtime potential p with
      | some d =>
        rw [resolveStep_copy mtime cfg tm potential p w d errs hsc hpr2 hres]
        exact copy_file_sub p d cfg tm w
      | none =>
        rw [resolveStep_err mtime cfg tm potential p w errs hsc hpr2 hres]
        exact World.sub_refl w
  · rw [resolveStep_skip mtime cfg tm potential w errs (by simpa using hsc)]
    exact World.sub_refl w

theorem processPaths_sub (mtime : String → Option DateTime) (cfg : RenamerConfig)
    (tm : Bool) (potential : List DateTime) :
    ∀ (ps : List String) (w : World) (errs : List String),
      w.sub (processPaths mtime cfg tm potential ps (w, errs)).1 := by
  intro ps
  induction ps with
  | nil => intro w errs; exact World.sub_refl w
  | cons p ps ih =>
    intro w errs
    rw [processPaths_cons]
    exact World.sub_trans (resolveStep_sub mtime cfg tm potential p w errs)
      (ih (resolveStep mtime cfg tm potential p w errs).1
        (resolveStep mtime cfg tm potential p w errs).2)

/-! ### Lemmas: settled files and idempotence of the driver -/

theorem fileSettled_mono {mtime : String → Option DateTime} {cfg : RenamerConfig}
    {potential : List DateTime} {p : String} {w w' : World} (hsub : w.sub w')
    (h : fileSettled mtime cfg potential p w) : fileSettled mtime cfg potential p w' := by
  rcases h with h | h | ⟨d, h1, h2⟩
  · exact Or.inl (has_file_been_processed_mono hsub h)
  · exact Or.inr (Or.inl h)
  · exact Or.inr (Or.inr ⟨d, h1, copyBlocked_mono hsub h2⟩)

/-- A live step on a settled file leaves the world exactly unchanged. -/
theorem resolveStep_of_settled {mtime : String → Option DateTime} {cfg : RenamerConfig}
    {potential : List DateTime} {p : String} {w : World} (errs : List String)
    (h : fileSettled mtime cfg potential p w) :
    (resolveStep mtime cfg false potential p w errs).1 = w := by
  by_cases hsc : file_in_scope p = true
  · by_cases hpr : has_file_been_processed w p = true
    · rw [resolveStep_processed mtime cfg false potential errs hpr]
    · have hpr2 : has_file_been_processed w p = false := by simpa using hpr
      rcases h with h | h | ⟨d, h1, h2⟩
      · exact absurd h hpr
      · rw [resolveStep_err mtime cfg false potential p w errs hsc hpr2 h]
      · rw [resolveStep_copy mtime cfg false potential p w d errs hsc hpr2 h1]
        rw [copy_file_of_blocked false h2]
  · rw [resolveStep_skip mtime cfg false potential w errs (by simpa using hsc)]

/-- A live step establishes settledness of the file it just handled. -/
theorem resolveStep_settles {mtime : String → Option DateTime} {cfg : RenamerConfig}
    {potential : List DateTime} {p : String} {w : World} (errs : List String)
    (hsc : file_in_scope p = true) :
    fileSettled mtime cfg potential p (resolveStep mtime cfg false potential p w errs).1 := by
  by_cases hpr : has_file_been_processed w p = true
  · rw [resolveStep_processed mtime cfg false potential errs hpr]
    exact Or.inl hpr
  · have hpr2 : has_file_been_processed w p = false := by simpa using hpr
    cases hres : resolveWith mtime potential p with
    | none =>
      rw [resolveStep_err mtime cfg false potential p w errs hsc hpr2 hres]
      exact Or.inr (Or.inl hres)
    | some d =>
      rw [resolveStep_copy mtime cfg false potential p w d errs hsc hpr2 hres]
      rcases copy_file_live_ledger p d cfg w with ⟨hex, hld, _⟩ | ⟨dst, hco, hld⟩
      · rcases copy_file_exhausted_inv hex with ⟨h1, h2⟩
        rw [h1]
        exact Or.inr (Or.inr ⟨d, hres, h2⟩)
      · refine Or.inl ?_
        simp only [has_file_been_processed, decide_eq_true_eq, hld]
        exact List.mem_cons_self _ _

/-- After a live pass over `ps`, every in-scope member of `ps` is settled. -/
theorem processPaths_settles (mtime : String → Option DateTime) (cfg : RenamerConfig)
    (potential : List DateTime) :
    ∀ (ps : List String) (w : World) (errs : List String) (p : String), p ∈ ps →
      file_in_scope p = true →
      fileSettled mtime cfg potential p (processPaths mtime cfg false potential ps (w, errs)).1 := by
  intro ps
  induction ps with
  | nil => intro w errs p hp; exact absurd hp (List.not_mem_nil p)
  | cons q ps ih =>
    intro w errs p hp hsc
    rw [processPaths_cons]
    rcases List.mem_cons.mp hp with rfl | hp
    · rcases hstep : resolveStep mtime cfg false potential p w errs with ⟨w', errs'⟩
      have hset : fileSettled mtime cfg potential p w' := by
        have := @resolveStep_settles mtime cfg potential p w errs hsc
        rwa [hstep] at this
      have hsub : w'.sub (processPaths mtime cfg false potential ps (w', errs')).1 :=
        processPaths_sub mtime cfg false potential ps w' errs'
      exact fileSettled_mono hsub hset
    · rcases hstep : resolveStep mtime cfg false potential q w errs with ⟨w', errs'⟩
      exact ih w' errs' p hp hsc

/-- A live pass over a list of settled files leaves the world exactly
unchanged. -/
theorem processPaths_of_settled (mtime : String → Option DateTime) (cfg : RenamerConfig)
    (potential : List DateTime) :
    ∀ (ps : List String) (w : World) (errs : List String),
      (∀ p ∈ ps, file_in_scope p = true → fileSettled mtime cfg potential p w) →
      (processPaths mtime cfg false potential ps (w, errs)).1 = w := by
  intro ps
  induction ps with
  | nil => intro w errs _; rfl
  | cons q ps ih =>
    intro w errs hall
    rw [processPaths_cons]
    by_cases hsc : file_in_scope q = true
    · have hq := hall q (List.mem_cons_self q ps) hsc
      have hw' : (resolveStep mtime cfg false potential q w errs).1 = w :=
        resolveStep_of_settled errs hq
      rcases hstep : resolveStep mtime cfg false potential q w errs with ⟨w', errs'⟩
      rw [hstep] at hw'
      simp only at hw'
      subst hw'
      exact ih w' errs' (fun p hp hs => hall p (List.mem_cons_of_mem q hp) hs)
    · rw [resolveStep_skip mtime cfg false potential w errs (by simpa using hsc)]
      exact ih w errs (fun p hp hs => hall p (List.mem_cons_of_mem q hp) hs)

/-- Error accumulation is purely additive: a pass started with accumulated
errors `errs` produces the same world and appends the same new lines as a pass
started with no errors. -/
theorem processPaths_split (mtime : String → Option DateTime) (cfg : RenamerConfig)
    (tm : Bool) (potential : List DateTime) :
    ∀ (ps : List String) (w : World) (errs : List String),
      processPaths mtime cfg tm potential ps (w, errs) =
        ((processPaths mtime cfg tm potential ps (w, [])).1,
          errs ++ (processPaths mtime cfg tm potential ps (w, [])).2) := by
  intro ps
  induction ps with
  | nil => intro w errs; simp [processPaths]
  | cons q ps ih =>
    intro w errs
    rw [processPaths_cons, processPaths_cons]
    by_cases hsc : file_in_scope q = true
    · by_cases hpr : has_file_been_processed w q = true
      · rw [resolveStep_processed mtime cfg tm potential errs hpr,
          resolveStep_processed mtime cfg tm potential [] hpr]
        exact ih w errs
      · have hpr2 : has_file_been_processed w q = false := by simpa using hpr
        cases hres : resolveWith mtime potential q with
        | some d =>
          rw [resolveStep_copy mtime cfg tm potential q w d errs hsc hpr2 hres,
            resolveStep_copy mtime cfg tm potential q w d [] hsc hpr2 hres]
          exact ih _ errs
        | none =>
          rw [resolveStep_err mtime cfg tm potential q w errs hsc hpr2 hres,
            resolveStep_err mtime cfg tm potential q w [] hsc hpr2 hres]
          rw [ih w (errs ++ ["Unable to determine valid datetime for " ++ q]),
            ih w ([] ++ ["Unable to determine valid datetime for " ++ q])]
          simp
    · rw [resolveStep_skip mtime cfg tm potential w errs (by simpa using hsc),
        resolveStep_skip mtime cfg tm potential w [] (by simpa using hsc)]
      exact ih w errs

/-- Every line a pass appends to the error report has the fixed
unresolvable-datetime shape. -/
theorem processPaths_err_shape (mtime : String → Option DateTime) (cfg : RenamerConfig)
    (tm : Bool) (potential : List DateTime) :
    ∀ (ps : List String) (w : World) (errs : List String) (e : String),
      e ∈ (processPaths mtime cfg tm potential ps (w, errs)).2 →
      e ∈ errs ∨ ∃ p, e = "Unable to determine valid datetime for " ++ p := by
  intro ps
  induction ps with
  | nil => intro w errs e he; exact Or.inl he
  | cons q ps ih =>
    intro w errs e he
    rw [processPaths_cons] at he
    by_cases hsc : file_in_scope q = true
    · by_cases hpr : has_file_been_processed w q = true
      · rw [resolveStep_processed mtime cfg tm potential errs hpr] at he
        exact ih w errs e he
      · have hpr2 : has_file_been_processed w q = false := by simpa using hpr
        cases hres : resolveWith mtime potential q with
        | some d =>
          rw [resolveStep_copy mtime cfg tm potential q w d errs hsc hpr2 hres] at he
          exact ih _ errs e he
        | none =>
          rw [resolveStep_err mtime cfg tm potential q w errs hsc hpr2 hres] at he
          rcases ih w (errs ++ ["Unable to determine valid datetime for " ++ q]) e he with
            hin | hgen
          · rcases List.mem_append.mp hin with hin | hin
            · exact Or.inl hin
            · rcases List.mem_singleton.mp hin with rfl
              exact Or.inr ⟨q, rfl⟩
          · exact Or.inr hgen
    · rw [resolveStep_skip mtime cfg tm potential w errs (by simpa using hsc)] at he
      exact ih w errs e he

/-! ### Lemmas: group level and whole-run level -/

theorem processGroup_sub (exif mtime : String → Option DateTime) (cfg : RenamerConfig)
    (tm : Bool) (g : List String) (w : World) (errs : List String) :
    w.sub (processGroup exif mtime cfg tm g (w, errs)).1 := by
  unfold processGroup
  by_cases hall : (g.all (fun p => has_file_been_processed w p)) = true
  · simp only [hall, if_true]
    exact World.sub_refl w
  · simp only [hall, Bool.false_eq_true, if_false]
    exact processPaths_sub mtime cfg tm (potentialDates exif g) g w errs

theorem processGroup_settles (exif mtime : String → Option DateTime) (cfg : RenamerConfig)
    (g : List String) (w : World) (errs : List String) (p : String) (hp : p ∈ g)
    (hsc : file_in_scope p = true) :
    fileSettled mtime cfg (potentialDates exif g) p
      (processGroup exif mtime cfg false g (w, errs)).1 := by
  unfold processGroup
  by_cases hall : (g.all (fun p => has_file_been_processed w p)) = true
  · simp only [hall, if_true]
    exact Or.inl (List.all_eq_true.mp hall p hp)
  · simp only [hall, Bool.false_eq_true, if_false]
    exact processPaths_settles mtime cfg (potentialDates exif g) g w errs p hp hsc

theorem processGroup_of_settled (exif mtime : String → Option DateTime)
    (cfg : RenamerConfig) (g : List String) (w : World) (errs : List String)
    (hset : ∀ p ∈ g, file_in_scope p = true →
      fileSettled mtime cfg (potentialDates exif g) p w) :
    (processGroup exif mtime cfg false g (w, errs)).1 = w := by
  unfold processGroup
  by_cases hall : (g.all (fun p => has_file_been_processed w p)) = true
  · simp only [hall, if_true]
  · simp only [hall, Bool.false_eq_true, if_false]
    exact processPaths_of_settled mtime cfg (potentialDates exif g) g w errs hset

theorem processGroup_split (exif mtime : String → Option DateTime) (cfg : RenamerConfig)
    (tm : Bool) (g : List String) (w : World) (errs : List String) :
    processGroup exif mtime cfg tm g (w, errs) =
      ((processGroup exif mtime cfg tm g (w, [])).1,
        errs ++ (processGroup exif mtime cfg tm g (w, [])).2) := by
  unfold processGroup
  by_cases hall : (g.all (fun p => has_file_been_processed w p)) = true
  · simp only [hall, if_true]
    simp
  · simp only [hall, Bool.false_eq_true, if_false]
    exact processPaths_split mtime cfg tm (potentialDates exif g) g w errs

theorem processGroup_err_shape (exif mtime : String → Option DateTime)
    (cfg : RenamerConfig) (tm : Bool) (g : List String) (w : World)
    (errs : List String) (e : String)
    (he : e ∈ (processGroup exif mtime cfg tm g (w, errs)).2) :
    e ∈ errs ∨ ∃ p, e = "Unable to determine valid datetime for " ++ p := by
  unfold processGroup at he
  by_cases hall : (g.all (fun p => has_file_been_processed w p)) = true
  · simp only [hall, if_true] at he
    exact Or.inl he
  · simp only [hall, Bool.false_eq_true, if_false] at he
    exact processPaths_err_shape mtime cfg tm (potentialDates exif g) g w errs e he

theorem processGroups_sub (exif mtime : String → Option DateTime) (cfg : RenamerConfig)
    (tm : Bool) :
    ∀ (gs : List (List String)) (w : World) (errs : List String),
      w.sub (processGroups exif mtime cfg tm gs (w, errs)).1 := by
  intro gs
  induction gs with
  | nil => intro w errs; exact World.sub_refl w
  | cons g gs ih =>
    intro w errs
    rw [processGroups]
    rcases hpg : processGroup exif mtime cfg tm g (w, errs) with ⟨w1, e1⟩
    have h1 : w.sub w1 := by
      have := processGroup_sub exif mtime cfg tm g w errs
      rwa [hpg] at this
    exact World.sub_trans h1 (ih w1 e1)

theorem processGroups_settles (exif mtime : String → Option DateTime) (cfg : RenamerConfig) :
    ∀ (gs : List (List String)) (w : World) (errs : List String) (g : List String)
      (p : String), g ∈ gs → p ∈ g → file_in_scope p = true →
      fileSettled mtime cfg (potentialDates exif g) p
        (processGroups exif mtime cfg false gs (w, errs)).1 := by
  intro gs
  induction gs with
  | nil => intro w errs g p hg; exact absurd hg (List.not_mem_nil g)
  | cons g0 gs ih =>
    intro w errs g p hg hp hsc
    rw [processGroups]
    rcases List.mem_cons.mp hg with rfl | hg
    · rcases hpg : processGroup exif mtime cfg false g (w, errs) with ⟨w1, e1⟩
      have hset : fileSettled mtime cfg (potentialDates exif g) p w1 := by
        have := processGroup_settles exif mtime cfg g w errs p hp hsc
        rwa [hpg] at this
      exact fileSettled_mono (processGroups_sub exif mtime cfg false gs w1 e1) hset
    · rcases hpg : processGroup exif mtime cfg false g0 (w, errs) with ⟨w1, e1⟩
      exact ih w1 e1 g p hg hp hsc

theorem processGroups_of_settled (exif mtime : String → Option DateTime)
    (cfg : RenamerConfig) :
    ∀ (gs : List (List String)) (w : World) (errs : List String),
      (∀ g ∈ gs, ∀ p ∈ g, file_in_scope p = true →
        fileSettled mtime cfg (potentialDates exif g) p w) →
      (processGroups exif mtime cfg false gs (w, errs)).1 = w := by
  intro gs
  induction gs with
  | nil => intro w errs _; rfl
  | cons g0 gs ih =>
    intro w errs hset
    rw [processGroups]
    rcases hpg : processGroup exif mtime cfg false g0 (w, errs) with ⟨w1, e1⟩
    have h1 : w1 = w := by
      have := processGroup_of_settled exif mtime cfg g0 w errs
        (hset g0 (List.mem_cons_self g0 gs))
      rwa [hpg] at this
    subst h1
    exact ih w1 e1 (fun g hg => hset g (List.mem_cons_of_mem g0 hg))

theorem processGroups_world_eq (exif mtime : String → Option DateTime)
    (cfg : RenamerConfig) (tm : Bool) :
    ∀ (gs : List (List String)) (w : World) (errs : List String),
      (processGroups exif mtime cfg tm gs (w, errs)).1 =
        processGroupsWorld exif mtime cfg tm gs w := by
  intro gs
  induction gs with
  | nil => intro w errs; rfl
  | cons g gs ih =>
    intro w errs
    rw [processGroups, processGroupsWorld, processGroup_split exif mtime cfg tm g w errs]
    exact ih (processGroup exif mtime cfg tm g (w, [])).1 _

theorem processGroups_err_shape (exif mtime : String → Option DateTime)
    (cfg : RenamerConfig) (tm : Bool) :
    ∀ (gs : List (List String)) (w : World) (errs : List String) (e : String),
      e ∈ (processGroups exif mtime cfg tm gs (w, errs)).2 →
      e ∈ errs ∨ ∃ p, e = "Unable to determine valid datetime for " ++ p := by
  intro gs
  induction gs with
  | nil => intro w errs e he; exact Or.inl he
  | cons g gs ih =>
    intro w errs e he
    rw [processGroups] at he
    rcases hpg : processGroup exif mtime cfg tm g (w, errs) with ⟨w1, e1⟩
    rw [hpg] at he
    rcases ih w1 e1 e he with hin | hgen
    · have : e ∈ e1 := hin
      have h2 : e ∈ (processGroup exif mtime cfg tm g (w, errs)).2 := by
        rw [hpg]; exact this
      exact processGroup_err_shape exif mtime cfg tm g w errs e h2
    · exact Or.inr hgen

/-! ### Lemmas: test-mode frame, potential-congruence, unified pass -/

theorem resolveStep_testmode_frame (mtime : String → Option DateTime)
    (cfg : RenamerConfig) (potential : List DateTime) (p : String) (w : World)
    (errs : List String) :
    (resolveStep mtime cfg true potential p w errs).1.files = w.files ∧
      (resolveStep mtime cfg true potential p w errs).1.ledger = w.ledger := by
  by_cases hsc : file_in_scope p = true
  · by_cases hpr : has_file_been_processed w p = true
    · rw [resolveStep_processed mtime cfg true potential errs hpr]
      exact ⟨rfl, rfl⟩
    · have hpr2 : has_file_been_processed w p = false := by simpa using hpr
      cases hres : resolveWith mtime potential p with
      | some d =>
        rw [resolveStep_copy mtime cfg true potential p w d errs hsc hpr2 hres]
        exact copy_file_testmode_frame p d cfg w
      | none =>
        rw [resolveStep_err mtime cfg true potential p w errs hsc hpr2 hres]
        exact ⟨rfl, rfl⟩
  · rw [resolveStep_skip mtime cfg true potential w errs (by simpa using hsc)]
    exact ⟨rfl, rfl⟩

theorem processPaths_testmode_frame (mtime : String → Option DateTime)
    (cfg : RenamerConfig) (potential : List DateTime) :
    ∀ (ps : List String) (w : World) (errs : List String),
      (processPaths mtime cfg true potential ps (w, errs)).1.files = w.files ∧
        (processPaths mtime cfg true potential ps (w, errs)).1.ledger = w.ledger := by
  intro ps
  induction ps with
  | nil => intro w errs; exact ⟨rfl, rfl⟩
  | cons q ps ih =>
    intro w errs
    rw [processPaths_cons]
    rcases hstep : resolveStep mtime cfg true potential q w errs with ⟨w1, e1⟩
    have hfr := resolveStep_testmode_frame mtime cfg potential q w errs
    rw [hstep] at hfr
    rcases ih w1 e1 with ⟨h1, h2⟩
    exact ⟨h1.trans hfr.1, h2.trans hfr.2⟩

theorem processGroup_testmode_frame (exif mtime : String → Option DateTime)
    (cfg : RenamerConfig) (g : List String) (w : World) (errs : List String) :
    (processGroup exif mtime cfg true g (w, errs)).1.files = w.files ∧
      (processGroup exif mtime cfg true g (w, errs)).1.ledger = w.ledger := by
  unfold processGroup
  by_cases hall : (g.all (fun p => has_file_been_processed w p)) = true
  · simp [hall]
  · simp only [hall, Bool.false_eq_true, if_false]
    exact processPaths_testmode_frame mtime cfg (potentialDates exif g) g w errs

theorem processGroups_testmode_frame (exif mtime : String → Option DateTime)
    (cfg : RenamerConfig) :
    ∀ (gs : List (List String)) (w : World) (errs : List String),
      (processGroups exif mtime cfg true gs (w, errs)).1.files = w.files ∧
        (processGroups exif mtime cfg true gs (w, errs)).1.ledger = w.ledger := by
  intro gs
  induction gs with
  | nil => intro w errs; exact ⟨rfl, rfl⟩
  | cons g gs ih =>
    intro w errs
    rw [processGroups]
    rcases hpg : processGroup exif mtime cfg true g (w, errs) with ⟨w1, e1⟩
    have hfr := processGroup_testmode_frame exif mtime cfg g w errs
    rw [hpg] at hfr
    rcases ih w1 e1 with ⟨h1, h2⟩
    exact ⟨h1.trans hfr.1, h2.trans hfr.2⟩

theorem resolveWith_of_not_single (mtime : String → Option DateTime)
    (potential : List DateTime) (p : String) (h : potential.length ≠ 1) :
    resolveWith mtime potential p =
      (match extract_datetime_from_filename p with
        | some d => some d
        | none => mtime p) := by
  rcases potential with _ | ⟨d, _ | ⟨e, tail⟩⟩
  · exact resolveWith_nil mtime p
  · exact (h rfl).elim
  · exact resolveWith_big mtime d e tail p

theorem resolveStep_congr_potential (mtime : String → Option DateTime)
    (cfg : RenamerConfig) (tm : Bool) (pot1 pot2 : List DateTime) (p : String)
    (w : World) (errs : List String) (h1 : pot1.length ≠ 1) (h2 : pot2.length ≠ 1) :
    resolveStep mtime cfg tm pot1 p w errs = resolveStep mtime cfg tm pot2 p w errs := by
  unfold resolveStep
  rw [resolveWith_of_not_single mtime pot1 p h1, resolveWith_of_not_single mtime pot2 p h2]

theorem processPaths_congr_potential (mtime : String → Option DateTime)
    (cfg : RenamerConfig) (tm : Bool) (pot1 pot2 : List DateTime)
    (h1 : pot1.length ≠ 1) (h2 : pot2.length ≠ 1) :
    ∀ (ps : List String) (w : World) (errs : List String),
      processPaths mtime cfg tm pot1 ps (w, errs) =
        processPaths mtime cfg tm pot2 ps (w, errs) := by
  intro ps
  induction ps with
  | nil => intro w errs; rfl
  | cons q ps ih =>
    intro w errs
    rw [processPaths_cons, processPaths_cons,
      resolveStep_congr_potential mtime cfg tm pot1 pot2 q w errs h1 h2]
    rcases resolveStep mtime cfg tm pot2 q w errs with ⟨w1, e1⟩
    exact ih w1 e1

theorem potentialDates_exifNone (g : List String) :
    potentialDates (fun _ => none) g = [] := by
  unfold potentialDates
  simp

theorem processPaths_single (mtime : String → Option DateTime) (cfg : RenamerConfig)
    (tm : Bool) (d : DateTime) :
    ∀ (ps : List String) (w : World) (errs : List String),
      processPaths mtime cfg tm [d] ps (w, errs) = unifiedGroupPass cfg tm d ps (w, errs) := by
  intro ps
  induction ps with
  | nil => intro w errs; rfl
  | cons q ps ih =>
    intro w errs
    rw [processPaths_cons, unifiedGroupPass]
    have hstep : resolveStep mtime cfg tm [d] q w errs =
        (if !file_in_scope q then (w, errs)
          else if has_file_been_processed w q then (w, errs)
          else ((copy_file_and_mark_as_processed q d cfg tm w).1, errs)) := by
      by_cases hsc : file_in_scope q = true
      · by_cases hpr : has_file_been_processed w q = true
        · rw [resolveStep_processed mtime cfg tm [d] errs hpr, hsc, hpr]
          rfl
        · have hpr2 : has_file_been_processed w q = false := by simpa using hpr
          rw [resolveStep_copy mtime cfg tm [d] q w d errs hsc hpr2
            (resolveWith_single mtime d q), hsc, hpr2]
          rfl
      · have hsc2 : file_in_scope q = false := by simpa using hsc
        rw [resolveStep_skip mtime cfg tm [d] w errs hsc2, hsc2]
        rfl
    rw [hstep]
    rcases hif : (if !file_in_scope q then (w, errs)
      else if has_file_been_processed w q then (w, errs)
      else ((copy_file_and_mark_as_processed q d cfg tm w).1, errs)) with ⟨w1, e1⟩
    exact ih w1 e1

/-! ### Lemmas: SQL LIKE on wildcard-free prefixes -/

theorem sqlLikeFuel_succ_cons (f : Nat) (pc : Char) (ps s : List Char) :
    sqlLikeFuel (f + 1) (pc :: ps) s =
      (if pc = '%' then
        sqlLikeFuel f ps s ||
          (match s with
            | [] => false
            | _ :: s2 => sqlLikeFuel f (pc :: ps) s2)
      else if pc = '_' then
        match s with
        | [] => false
        | _ :: s2 => sqlLikeFuel f ps s2
      else
        match s with
        | [] => false
        | c2 :: s2 => likeCharEq pc c2 && sqlLikeFuel f ps s2) := rfl

theorem sqlLikeFuel_percent_all : ∀ (s : List Char) (f : Nat), s.length + 1 < f →
    sqlLikeFuel f ['%'] s = true := by
  intro s
  induction s with
  | nil =>
    intro f hf
    match f, hf with
    | f0 + 1, _ =>
      rw [sqlLikeFuel_succ_cons, if_pos rfl]
      match f0, (by omega : 0 < f0) with
      | f1 + 1, _ => rfl
  | cons a s ih =>
    intro f hf
    match f, hf with
    | f0 + 1, hf2 =>
      rw [sqlLikeFuel_succ_cons, if_pos rfl]
      have hs : s.length + 1 < f0 := by
        simp only [List.length_cons] at hf2
        omega
      simp [ih f0 hs]

theorem sqlLikeFuel_plain :
    ∀ (p s : List Char) (f : Nat), p.length + s.length + 1 < f →
      (∀ c ∈ p, c ≠ '%' ∧ c ≠ '_') →
      sqlLikeFuel f (p ++ ['%']) s =
        List.isPrefixOf (p.map lowerChar) (s.map lowerChar) := by
  intro p
  induction p with
  | nil =>
    intro s f hf _
    simp only [List.nil_append, List.map_nil, List.isPrefixOf]
    exact sqlLikeFuel_percent_all s f (by simpa using hf)
  | cons c p ih =>
    intro s f hf hwc
    have hc := hwc c (List.mem_cons_self c p)
    match f, hf with
    | f0 + 1, hf =>
      rw [List.cons_append, sqlLikeFuel_succ_cons,
        if_neg (by simp [hc.1]), if_neg (by simp [hc.2])]
      cases s with
      | nil => simp [List.isPrefixOf]
      | cons a s2 =>
        simp only [List.map_cons, List.isPrefixOf]
        have hfs : p.length + s2.length + 1 < f0 := by
          simp only [List.length_cons] at hf
          omega
        have hrec := ih s2 f0 hfs (fun b hb => hwc b (List.mem_cons_of_mem c hb))
        rw [hrec]
        by_cases heq : lowerChar c = lowerChar a
        · have h1 : likeCharEq c a = true := by simp [likeCharEq, heq]
          have h2 : (lowerChar c == lowerChar a) = true := by simp [heq]
          rw [h1, h2]
        · have h1 : likeCharEq c a = false := by simp [likeCharEq, heq]
          have h2 : (lowerChar c == lowerChar a) = false := by simp [heq]
          rw [h1, h2]

theorem sqlLike_plain (p s : String) (hp : noWildcard p = true) :
    sqlLike (p ++ "%") s = asciiPrefixFold p s := by
  unfold sqlLike asciiPrefixFold
  have hdata : (p ++ "%").data = p.data ++ ['%'] := rfl
  rw [hdata]
  apply sqlLikeFuel_plain
  · simp
  · intro c hc
    have h0 := List.all_eq_true.mp hp c hc
    have h3 : ¬(c = '%') ∧ ¬(c = '_') := by simpa using h0
    exact h3

/-! ### Lemmas: unfolding process_files -/

theorem process_files_def2 (exif mtime : String → Option DateTime) (cfg : RenamerConfig)
    (tm : Bool) (rn : String) (gs : List (List String)) (w : World) :
    process_files exif mtime cfg tm rn gs w =
      (if (processGroups exif mtime cfg tm gs (w, [])).2.isEmpty then
        ⟨(processGroups exif mtime cfg tm gs (w, [])).1,
          (processGroups exif mtime cfg tm gs (w, [])).2, true⟩
      else
        ⟨{ (processGroups exif mtime cfg tm gs (w, [])).1 with
            files := rn :: (processGroups exif mtime cfg tm gs (w, [])).1.files },
          (processGroups exif mtime cfg tm gs (w, [])).2, false⟩) := rfl

/-! ### The claims -/

/-- C1: the spec claims that a stem containing an 8-digit date, optional
`-`/`_`, and a 6-digit time is parsed as YYYYMMDDHHMMSS by
`extract_datetime_from_filename` — in particular `IMG_20230115_142233.jpg`
resolves to 2023-01-15 14:22:33.  The code can never do this: it compares
`captures.len()` — which is always 3 for this regex (the whole match plus two
groups) — against 1, so the function returns `None` on every input and the
parse below the guard is dead code.  This theorem shows (1) the function is
constantly `None`, (2) on the claimed input the regex does match with capture
groups 20230115 and 142233, and (3) parsing their concatenation yields exactly
the claimed timestamp, so the guard is the only obstruction. -/
theorem C1_filename_timestamp_extraction_code_bug :
    (∀ s : String, extract_datetime_from_filename s = none) ∧
    findTimestampMatch (stemOf "IMG_20230115_142233.jpg").data =
      some ("20230115".data, "142233".data) ∧
    parseDateTime14 ("20230115".data ++ "142233".data) =
      some ⟨2023, 1, 15, 14, 22, 33⟩ := by
  refine ⟨?_, by decide, by decide⟩
  intro s
  unfold extract_datetime_from_filename
  cases h : findTimestampMatch (stemOf s).data with
  | none => rfl
  | some r =>
    rcases r with ⟨d8, t6⟩
    simp [renamerRegexCapturesLen]

/-- C2 counterexample: in test mode, with one in-scope unprocessed file whose
timestamp resolves from its modified time and an absent output directory, the
run still creates the output directory (`fs::create_dir_all` runs before the
test-mode check), contradicting "no directory is created". -/
theorem C2_dry_run_counterexample :
    (process_files exifNoneOracle mtimeConstOracle cfgDemo true "rep.log" [["a.jpg"]]
        emptyWorld).world.dirs = ["out"] ∧
    emptyWorld.dirs = ([] : List String) := by
  constructor
  · decide
  · rfl

/-- C2 (amended): invoking rename in test mode copies no file and performs no
ledger mutation, and rebase in test mode performs no ledger mutation; however
the rename may still create output directories (the directory-creation step
precedes the test-mode check) and may still write the error report file when
unresolvable files exist.  Formally: in a test-mode rename the final ledger is
the initial ledger and the final file set is the initial one, except possibly
for the report file; a test-mode rebase returns the ledger unchanged. -/
theorem C2_dry_run_purity_amended (exif mtime : String → Option DateTime)
    (cfg : RenamerConfig) (rn : String) (gs : List (List String)) (w : World)
    (orig dest : String) (ledger : List String) :
    (process_files exif mtime cfg true rn gs w).world.ledger = w.ledger ∧
    ((process_files exif mtime cfg true rn gs w).world.files = w.files ∨
      (process_files exif mtime cfg true rn gs w).world.files = rn :: w.files) ∧
    (process_rebase orig dest true ledger).ledger = ledger := by
  rcases processGroups_testmode_frame exif mtime cfg gs w [] with ⟨hf, hl⟩
  rw [process_files_def2]
  by_cases he : (processGroups exif mtime cfg true gs (w, [])).2.isEmpty
  · simp only [he, if_true]
    exact ⟨hl, Or.inl hf, rfl⟩
  · simp only [he, Bool.false_eq_true, if_false]
    refine ⟨hl, Or.inr ?_, rfl⟩
    simp [hf]

/-- C3 counterexample: group `["x/b.jpg", "y/b.jpg"]` has two distinct EXIF
timestamps (2020-01-01 00:00:00 for x/b.jpg, 2021-02-02 for y/b.jpg), so
group mode is abandoned.  The claim says x/b.jpg is then resolved from its own
EXIF timestamp, i.e. copied as out/20200101_000000.jpg — but the run copies it
as out/20220505_050505.jpg, from its modified time: the per-file fallback
never consults EXIF (and the filename tier never fires, see C1). -/
theorem C3_ambiguous_group_counterexample :
    exifAmbiguous "x/b.jpg" = some ⟨2020, 1, 1, 0, 0, 0⟩ ∧
    mtimeAmbiguous "x/b.jpg" = some ⟨2022, 5, 5, 5, 5, 5⟩ ∧
    ("out/20200101_000000.jpg" ∉
      (process_files exifAmbiguous mtimeAmbiguous cfgDemo false "rep.log"
        [["x/b.jpg", "y/b.jpg"]] emptyWorld).world.files) ∧
    ("out/20220505_050505.jpg" ∈
      (process_files exifAmbiguous mtimeAmbiguous cfgDemo false "rep.log"
        [["x/b.jpg", "y/b.jpg"]] emptyWorld).world.files) := by
  refine ⟨rfl, rfl, by decide, by decide⟩

/-- C3 (amended): when the distinct EXIF timestamps of a stem group do not
number exactly one, each member is resolved independently by the per-file
fallback chain — but that chain does not re-consult EXIF at all, not even the
member's own: it is the filename-embedded timestamp, then the file's modified
time.  Formally, processing such a group is identical to processing it with an
EXIF oracle that fails on every file. -/
theorem C3_ambiguous_group_amended (exif mtime : String → Option DateTime)
    (cfg : RenamerConfig) (tm : Bool) (g : List String) (acc : World × List String)
    (h : (potentialDates exif g).length ≠ 1) :
    processGroup exif mtime cfg tm g acc =
      processGroup (fun _ => none) mtime cfg tm g acc := by
  unfold processGroup
  by_cases hall : (g.all (fun p => has_file_been_processed acc.1 p)) = true
  · simp [hall]
  · simp only [hall, Bool.false_eq_true, if_false]
    have h2 : (potentialDates (fun _ => none) g).length ≠ 1 := by
      rw [potentialDates_exifNone]
      decide
    rcases acc with ⟨w, errs⟩
    exact processPaths_congr_potential mtime cfg tm (potentialDates exif g)
      (potentialDates (fun _ => none) g) h h2 g w errs

/-- C3 witness: the two-member group with distinct EXIF dates satisfies the
ambiguity hypothesis, and its processing coincides with a run where no file
has EXIF at all. -/
theorem C3_ambiguous_group_witness :
    (potentialDates exifAmbiguous ["x/b.jpg", "y/b.jpg"]).length ≠ 1 ∧
    processGroup exifAmbiguous mtimeAmbiguous cfgDemo false ["x/b.jpg", "y/b.jpg"]
        (emptyWorld, []) =
      processGroup (fun _ => none) mtimeAmbiguous cfgDemo false ["x/b.jpg", "y/b.jpg"]
        (emptyWorld, []) :=
  ⟨by decide,
    C3_ambiguous_group_amended exifAmbiguous mtimeAmbiguous cfgDemo false
      ["x/b.jpg", "y/b.jpg"] (emptyWorld, []) (by decide)⟩

/-- C4: when the successful EXIF extractions of a stem group yield exactly one
distinct timestamp `d`, the group is processed by the unified pass: every
in-scope member not already in the ledger is handed to the copy executor with
`d` — regardless of its own EXIF, filename or modified time, and with no error
line ever produced — and any copy the executor performs lands at a name built
from `d` (a lowercased candidate path for some counter below 99). -/
theorem C4_group_timestamp_unification (exif mtime : String → Option DateTime)
    (cfg : RenamerConfig) (tm : Bool) (g : List String) (w : World)
    (errs : List String) (d : DateTime) (h : potentialDates exif g = [d]) :
    (processGroup exif mtime cfg tm g (w, errs) =
      (if g.all (fun p => has_file_been_processed w p) then (w, errs)
        else unifiedGroupPass cfg tm d g (w, errs))) ∧
    (∀ (p : String) (w' : World) (dst : String),
      (copy_file_and_mark_as_processed p d cfg tm w').2 = .copied dst →
      ∃ k, k < 99 ∧ dst = lowerStr (candidatePath cfg p d k)) := by
  constructor
  · unfold processGroup
    rw [h]
    by_cases hall : (g.all (fun p => has_file_been_processed w p)) = true
    · simp [hall]
    · simp only [hall, Bool.false_eq_true, if_false]
      exact processPaths_single mtime cfg tm d g w errs
  · intro p w' dst hco
    rcases copy_file_copied_spec hco with ⟨k, hk, _, hdst, _⟩
    exact ⟨k, hk, hdst⟩

/-- C4 witness: the group `["x/c.jpg", "x/c.mov"]`, where only the jpg has
EXIF, satisfies the single-timestamp hypothesis; the group is processed by the
unified pass even though the mov has no EXIF and no modified time, and the mov
is indeed copied under the jpg's timestamp. -/
theorem C4_group_timestamp_unification_witness :
    potentialDates exifUnified ["x/c.jpg", "x/c.mov"] = [⟨2020, 1, 1, 0, 0, 0⟩] ∧
    (processGroup exifUnified mtimeNoneOracle cfgDemo false ["x/c.jpg", "x/c.mov"]
        (emptyWorld, []) =
      (if ["x/c.jpg", "x/c.mov"].all (fun p => has_file_been_processed emptyWorld p)
        then (emptyWorld, ([] : List String))
        else unifiedGroupPass cfgDemo false ⟨2020, 1, 1, 0, 0, 0⟩
          ["x/c.jpg", "x/c.mov"] (emptyWorld, []))) ∧
    "out/20200101_000000.mov" ∈
      (processGroup exifUnified mtimeNoneOracle cfgDemo false ["x/c.jpg", "x/c.mov"]
        (emptyWorld, [])).1.files :=
  ⟨by decide,
    (C4_group_timestamp_unification exifUnified mtimeNoneOracle cfgDemo false
      ["x/c.jpg", "x/c.mov"] emptyWorld [] ⟨2020, 1, 1, 0, 0, 0⟩ (by decide)).1,
    by decide⟩

theorem process_files_world_cases (exif mtime : String → Option DateTime)
    (cfg : RenamerConfig) (tm : Bool) (rn : String) (gs : List (List String))
    (w : World) :
    (process_files exif mtime cfg tm rn gs w).world =
        (processGroups exif mtime cfg tm gs (w, [])).1 ∨
      (process_files exif mtime cfg tm rn gs w).world =
        { (processGroups exif mtime cfg tm gs (w, [])).1 with
            files := rn :: (processGroups exif mtime cfg tm gs (w, [])).1.files } := by
  rw [process_files_def2]
  by_cases he : (processGroups exif mtime cfg tm gs (w, [])).2.isEmpty
  · simp [he]
  · simp [he]

/-- C5: running the rename operation a second time, over the same stem groups
with the same oracles, starting from the world the first live run produced,
inserts no ledger row and copies no file: the second run's ledger equals the
first run's, and its file set equals the first run's except possibly for the
second run's error-report file.  Every file copied in the first run is in the
ledger and is skipped by the is-processed check; every file not copied is
either unresolvable again or still finds all 99 candidates taken. -/
theorem C5_rename_idempotent (exif mtime : String → Option DateTime)
    (cfg : RenamerConfig) (rn1 rn2 : String) (gs : List (List String)) (w : World) :
    (process_files exif mtime cfg false rn2 gs
        (process_files exif mtime cfg false rn1 gs w).world).world.ledger =
      (process_files exif mtime cfg false rn1 gs w).world.ledger ∧
    ((process_files exif mtime cfg false rn2 gs
        (process_files exif mtime cfg false rn1 gs w).world).world.files =
      (process_files exif mtime cfg false rn1 gs w).world.files ∨
      (process_files exif mtime cfg false rn2 gs
        (process_files exif mtime cfg false rn1 gs w).world).world.files =
      rn2 :: (process_files exif mtime cfg false rn1 gs w).world.files) := by
  have hsub : (processGroups exif mtime cfg false gs (w, [])).1.sub
      (process_files exif mtime cfg false rn1 gs w).world := by
    rcases process_files_world_cases exif mtime cfg false rn1 gs w with h1 | h1
    · rw [h1]
      exact World.sub_refl _
    · rw [h1]
      exact ⟨fun x hx => List.mem_cons_of_mem _ hx, fun x hx => hx, fun x hx => hx⟩
  have hset : ∀ g ∈ gs, ∀ p ∈ g, file_in_scope p = true →
      fileSettled mtime cfg (potentialDates exif g) p
        (process_files exif mtime cfg false rn1 gs w).world := by
    intro g hg p hp hsc
    exact fileSettled_mono hsub (processGroups_settles exif mtime cfg gs w [] g p hg hp hsc)
  have hnoop : (processGroups exif mtime cfg false gs
      ((process_files exif mtime cfg false rn1 gs w).world, [])).1 =
      (process_files exif mtime cfg false rn1 gs w).world :=
    processGroups_of_settled exif mtime cfg gs
      (process_files exif mtime cfg false rn1 gs w).world [] hset
  rcases process_files_world_cases exif mtime cfg false rn2 gs
      (process_files exif mtime cfg false rn1 gs w).world with h2 | h2
  · rw [h2, hnoop]
    exact ⟨rfl, Or.inl rfl⟩
  · rw [h2, hnoop]
    exact ⟨rfl, Or.inr rfl⟩

/-- C6 counterexample: the claim says rebase affects exactly the entries whose
normalized path starts with the normalized old prefix.  But the match is a SQL
`LIKE`, in which `_` is a single-character wildcard (and letters compare
ASCII-case-insensitively): rebasing old root `/a_b` — normalized to `/a_b/` —
counts the entry `/axb/c.jpg` as affected although it does not start with
`/a_b/`. -/
theorem C6_rebase_prefix_counterexample :
    normalizeRoot "/a_b" = "/a_b/" ∧
    (process_rebase "/a_b" "/archive" true ["/axb/c.jpg"]).count = 1 ∧
    List.isPrefixOf "/a_b/".data "/axb/c.jpg".data = false := by
  refine ⟨rfl, by decide, by decide⟩

/-- C6 (amended): rebase normalizes both roots (backslashes to forward
slashes, a trailing separator appended when missing) and then affects exactly
the ledger entries matching the SQL `LIKE` pattern `old_prefix ++ "%"` — where
`_`/`%` are wildcards and ASCII letters match case-insensitively — returning
the count of matching rows; the dry run counts the same rows without mutating,
the live run rewrites exactly the matching rows (every occurrence of the old
prefix substring replaced) and leaves non-matching entries unchanged.  For an
old prefix free of wildcard characters, matching coincides with
case-folded-prefix matching (so for case-exact data the spec's
trailing-separator example behaves as claimed). -/
theorem C6_rebase_amended (orig dest : String) (ledger : List String) :
    ((process_rebase orig dest true ledger).ledger = ledger ∧
      (process_rebase orig dest true ledger).count =
        (process_rebase orig dest false ledger).count ∧
      (process_rebase orig dest false ledger).count =
        (ledger.filter (fun e => sqlLike (normalizeRoot orig ++ "%") e)).length ∧
      (process_rebase orig dest false ledger).ledger =
        ledger.map (fun e =>
          if sqlLike (normalizeRoot orig ++ "%") e then
            replaceAll e (normalizeRoot orig) (normalizeRoot dest)
          else e)) ∧
    (noWildcard (normalizeRoot orig) = true →
      ∀ e : String, sqlLike (normalizeRoot orig ++ "%") e =
        asciiPrefixFold (normalizeRoot orig) e) := by
  refine ⟨⟨rfl, rfl, rfl, rfl⟩, fun hw e => sqlLike_plain (normalizeRoot orig) e hw⟩

/-- C6 witness: on the spec's own example — entries `/data/photos/a.jpg` and
`/data/photos2/b.jpg`, rebasing `/data/photos` to `/archive/photos` — exactly
one row is affected, the dry run leaves the ledger unchanged with the same
count, and the live run rewrites only the first entry; the wildcard-free
prefix `/data/photos/` matches via case-folded prefix comparison. -/
theorem C6_rebase_amended_witness :
    (process_rebase "/data/photos" "/archive/photos" true
        ["/data/photos/a.jpg", "/data/photos2/b.jpg"]).ledger =
      ["/data/photos/a.jpg", "/data/photos2/b.jpg"] ∧
    (process_rebase "/data/photos" "/archive/photos" false
        ["/data/photos/a.jpg", "/data/photos2/b.jpg"]).count = 1 ∧
    (process_rebase "/data/photos" "/archive/photos" false
        ["/data/photos/a.jpg", "/data/photos2/b.jpg"]).ledger =
      ["/archive/photos/a.jpg", "/data/photos2/b.jpg"] ∧
    noWildcard (normalizeRoot "/data/photos") = true ∧
    sqlLike (normalizeRoot "/data/photos" ++ "%") "/data/photos/a.jpg" =
      asciiPrefixFold (normalizeRoot "/data/photos") "/data/photos/a.jpg" :=
  ⟨(C6_rebase_amended "/data/photos" "/archive/photos"
      ["/data/photos/a.jpg", "/data/photos2/b.jpg"]).1.1,
    by decide, by decide, by decide,
    (C6_rebase_amended "/data/photos" "/archive/photos"
      ["/data/photos/a.jpg", "/data/photos2/b.jpg"]).2 (by decide)
      "/data/photos/a.jpg"⟩

/-- C7: candidate names are tried with counters 0, 1, …, 98 in order and the
first candidate not on disk is taken: if every counter below `k` yields an
existing path and counter `k` is free (k < 99), the live executor copies to
the lowercased `k`-th candidate path; when that candidate is already fully
lowercase, the destination did not previously exist, so nothing is
overwritten. -/
theorem C7_collision_counter (cfg : RenamerConfig) (p : String) (d : DateTime)
    (w : World) (k : Nat) (hk : k < 99)
    (hbusy : ∀ j, j < k →
      pathExists (withOutDir cfg p w) (candidatePath cfg p d j) = true)
    (hfree : pathExists (withOutDir cfg p w) (candidatePath cfg p d k) = false) :
    (copy_file_and_mark_as_processed p d cfg false w).2 =
      .copied (lowerStr (candidatePath cfg p d k)) ∧
    (lowerStr (candidatePath cfg p d k) = candidatePath cfg p d k →
      pathExists (withOutDir cfg p w) (lowerStr (candidatePath cfg p d k)) = false) := by
  constructor
  · rw [copy_file_eq_withOutDir, List.range_eq_range']
    rw [copyLoop_first_free (pathExists_withOutDir cfg p w) 99 0 (Nat.zero_le k)
      (by omega) (fun j _ hj => hbusy j hj) hfree]
    rfl
  · intro heq
    rw [heq]
    exact hfree

/-- C7 witness: with `out/20230101_120000.jpg` already on disk, the next file
resolving to 2023-01-01 12:00:00 is copied to `out/20230101_120000.1.jpg`,
which did not previously exist. -/
theorem C7_collision_counter_witness :
    (copy_file_and_mark_as_processed "s/a.jpg" ⟨2023, 1, 1, 12, 0, 0⟩ cfgDemo false
        collisionWorld).2 = .copied "out/20230101_120000.1.jpg" ∧
    "out/20230101_120000.1.jpg" ∉ collisionWorld.files := by
  have h := C7_collision_counter cfgDemo "s/a.jpg" ⟨2023, 1, 1, 12, 0, 0⟩
    collisionWorld 1 (by omega)
    (fun j hj => by
      have hj0 : j = 0 := by omega
      subst hj0
      decide)
    (by decide)
  constructor
  · rw [h.1]
    decide
  · decide

/-- C8: when all 99 candidate paths already exist, the copy executor runs off
the end of its loop and returns success: the outcome is `exhausted`, no file
was copied and no ledger row inserted, and the driver records no error line
for the file — the step hands back the world with the error list untouched. -/
theorem C8_exhausted_counters_silent (mtime : String → Option DateTime)
    (cfg : RenamerConfig) (tm : Bool) (p : String) (d : DateTime) (w : World)
    (errs : List String)
    (hall : ∀ k, k < 99 →
      pathExists (withOutDir cfg p w) (candidatePath cfg p d k) = true)
    (hsc : file_in_scope p = true) (hpr : has_file_been_processed w p = false) :
    (copy_file_and_mark_as_processed p d cfg tm w).2 = .exhausted ∧
    (copy_file_and_mark_as_processed p d cfg tm w).1.files = w.files ∧
    (copy_file_and_mark_as_processed p d cfg tm w).1.ledger = w.ledger ∧
    processPaths mtime cfg tm [d] [p] (w, errs) =
      ((copy_file_and_mark_as_processed p d cfg tm w).1, errs) := by
  have hloop : copy_file_and_mark_as_processed p d cfg tm w =
      (withOutDir cfg p w, .exhausted) := by
    rw [copy_file_eq_withOutDir]
    exact copyLoop_exhausted_of_all (pathExists_withOutDir cfg p w) (List.range 99)
      (fun c hc => hall c (List.mem_range.mp hc))
  refine ⟨by rw [hloop], ?_, ?_, ?_⟩
  · rw [hloop]
    exact addDirIfMissing_files w _
  · rw [hloop]
    exact addDirIfMissing_ledger w _
  · rw [processPaths_cons,
      resolveStep_copy mtime cfg tm [d] p w d errs hsc hpr (resolveWith_single mtime d p)]
    rfl

/-- C8 witness: on a disk holding all 99 candidate names for `s/a.jpg` at
2023-01-01 12:00:00, the executor returns `exhausted` with files and ledger
untouched, and the driver step for that file appends no error line. -/
theorem C8_exhausted_counters_silent_witness :
    (copy_file_and_mark_as_processed "s/a.jpg" ⟨2023, 1, 1, 12, 0, 0⟩ cfgDemo false
        blockedWorld).2 = .exhausted ∧
    (copy_file_and_mark_as_processed "s/a.jpg" ⟨2023, 1, 1, 12, 0, 0⟩ cfgDemo false
        blockedWorld).1.files = blockedWorld.files ∧
    (copy_file_and_mark_as_processed "s/a.jpg" ⟨2023, 1, 1, 12, 0, 0⟩ cfgDemo false
        blockedWorld).1.ledger = blockedWorld.ledger ∧
    processPaths mtimeNoneOracle cfgDemo false [⟨2023, 1, 1, 12, 0, 0⟩] ["s/a.jpg"]
        (blockedWorld, []) =
      ((copy_file_and_mark_as_processed "s/a.jpg" ⟨2023, 1, 1, 12, 0, 0⟩ cfgDemo false
        blockedWorld).1, []) :=
  C8_exhausted_counters_silent mtimeNoneOracle cfgDemo false "s/a.jpg"
    ⟨2023, 1, 1, 12, 0, 0⟩ blockedWorld []
    (fun k hk => by
      have hdir : pathExists blockedWorld (outDirOf cfgDemo "s/a.jpg") = true := by decide
      rw [withOutDir, addDirIfMissing_of_exists hdir]
      have hmem : candidatePath cfgDemo "s/a.jpg" ⟨2023, 1, 1, 12, 0, 0⟩ k ∈
          blockedWorld.files :=
        List.mem_map_of_mem _ (List.mem_range.mpr hk)
      simp only [pathExists, Bool.or_eq_true, decide_eq_true_eq]
      exact Or.inl hmem)
    (by decide) (by decide)

/-- C9: a run with at least one unresolvable file does not stop early: it
returns failure only after attempting every group, having performed every copy
an error-free threading would perform (the final world is the group-by-group
fold `processGroupsWorld`, which ignores the error accumulator entirely), and
it writes the error report file, whose lines all have the one-per-unresolved-
file shape. -/
theorem C9_errors_do_not_stop_processing (exif mtime : String → Option DateTime)
    (cfg : RenamerConfig) (tm : Bool) (rn : String) (gs : List (List String))
    (w : World) (h : (process_files exif mtime cfg tm rn gs w).errors ≠ []) :
    (process_files exif mtime cfg tm rn gs w).success = false ∧
    (process_files exif mtime cfg tm rn gs w).world.files =
      rn :: (processGroupsWorld exif mtime cfg tm gs w).files ∧
    (process_files exif mtime cfg tm rn gs w).world.ledger =
      (processGroupsWorld exif mtime cfg tm gs w).ledger ∧
    (∀ e ∈ (process_files exif mtime cfg tm rn gs w).errors,
      ∃ p, e = "Unable to determine valid datetime for " ++ p) := by
  rw [process_files_def2] at h ⊢
  by_cases he : (processGroups exif mtime cfg tm gs (w, [])).2.isEmpty
  · rw [if_pos he] at h
    have : (processGroups exif mtime cfg tm gs (w, [])).2 = [] :=
      List.isEmpty_iff.mp he
    exact absurd this h
  · rw [if_neg he] at h ⊢
    refine ⟨rfl, ?_, ?_, ?_⟩
    · simp only
      rw [processGroups_world_eq]
    · simp only
      rw [processGroups_world_eq]
    · intro e hee
      simp only at hee
      rcases processGroups_err_shape exif mtime cfg tm gs w [] e hee with hin | hgen
      · exact absurd hin (List.not_mem_nil e)
      · exact hgen

/-- C9 witness: a run over a single group whose only member has no EXIF, no
filename timestamp and no modified time produces a non-empty error list, is
reported failed, writes the report file on top of the fold world, and every
error line names an unresolved file. -/
theorem C9_errors_do_not_stop_processing_witness :
    (process_files exifNoneOracle mtimeNoneOracle cfgDemo false "rep.log" [["a.jpg"]]
        emptyWorld).errors ≠ [] ∧
    (process_files exifNoneOracle mtimeNoneOracle cfgDemo false "rep.log" [["a.jpg"]]
        emptyWorld).success = false ∧
    (process_files exifNoneOracle mtimeNoneOracle cfgDemo false "rep.log" [["a.jpg"]]
        emptyWorld).world.files =
      "rep.log" :: (processGroupsWorld exifNoneOracle mtimeNoneOracle cfgDemo false
        [["a.jpg"]] emptyWorld).files :=
  ⟨by decide,
    (C9_errors_do_not_stop_processing exifNoneOracle mtimeNoneOracle cfgDemo false
      "rep.log" [["a.jpg"]] emptyWorld (by decide)).1,
    (C9_errors_do_not_stop_processing exifNoneOracle mtimeNoneOracle cfgDemo false
      "rep.log" [["a.jpg"]] emptyWorld (by decide)).2.1⟩

/-- C10: whenever the copy executor reports a performed copy, the destination
is the entire candidate path lowercased, while the on-disk collision check was
made on the candidate path before lowercasing; hence if the candidate contains
an uppercase ASCII character the checked path and the written path differ, and
the written path is always free of uppercase ASCII characters. -/
theorem C10_copy_path_lowercased (cfg : RenamerConfig) (p : String) (d : DateTime)
    (tm : Bool) (w : World) (dst : String)
    (h : (copy_file_and_mark_as_processed p d cfg tm w).2 = .copied dst) :
    ∃ k, k < 99 ∧
      dst = lowerStr (candidatePath cfg p d k) ∧
      pathExists (withOutDir cfg p w) (candidatePath cfg p d k) = false ∧
      (hasUpperA (candidatePath cfg p d k) = true → candidatePath cfg p d k ≠ dst) ∧
      noUpperA dst = true := by
  rcases copy_file_copied_spec h with ⟨k, hk, hfree, hdst, _⟩
  refine ⟨k, hk, hdst, hfree, ?_, ?_⟩
  · intro hup heq
    have hfix : lowerStr (candidatePath cfg p d k) = candidatePath cfg p d k := by
      rw [← hdst, heq]
    exact lowerStr_ne_of_hasUpper _ hup hfix
  · rw [hdst]
    exact noUpperA_lowerStr _

/-- C10 witness: with output directory `Out` and source extension `JPG`, the
candidate `Out/20230101_120000.JPG` is checked for existence, but the file is
written to `out/20230101_120000.jpg`; the destination carries no uppercase
character and differs from the checked path. -/
theorem C10_copy_path_lowercased_witness :
    (copy_file_and_mark_as_processed "s/a.JPG" ⟨2023, 1, 1, 12, 0, 0⟩ cfgUpper false
        emptyWorld).2 = .copied "out/20230101_120000.jpg" ∧
    (∃ k, k < 99 ∧
      "out/20230101_120000.jpg" =
        lowerStr (candidatePath cfgUpper "s/a.JPG" ⟨2023, 1, 1, 12, 0, 0⟩ k) ∧
      pathExists (withOutDir cfgUpper "s/a.JPG" emptyWorld)
        (candidatePath cfgUpper "s/a.JPG" ⟨2023, 1, 1, 12, 0, 0⟩ k) = false ∧
      (hasUpperA (candidatePath cfgUpper "s/a.JPG" ⟨2023, 1, 1, 12, 0, 0⟩ k) = true →
        candidatePath cfgUpper "s/a.JPG" ⟨2023, 1, 1, 12, 0, 0⟩ k ≠
          "out/20230101_120000.jpg") ∧
      noUpperA "out/20230101_120000.jpg" = true) :=
  ⟨by decide,
    C10_copy_path_lowercased cfgUpper "s/a.JPG" ⟨2023, 1, 1, 12, 0, 0⟩ false
      emptyWorld "out/20230101_120000.jpg" (by decide)⟩

end PhotoRenamer
